import Mathlib

/-!
Verification of the module-file generation subsystem of the Spack package
manager (`lib/spack/spack/modules.py`).

The Python source is shallowly embedded: pure functions become Lean
functions, the per-format module generators become explicit records, the
in-place dictionary merge becomes a functional fold returning `Option`
(`none` models a Python `TypeError`), and the fallible parts of `write()`
return `Except`.  Collaborators that live outside the embedded file
(`spack.spec`, `os.path`, `spack.environment`) are modelled from the
specification where the claims need them; each such definition carries a
doc comment starting with "Modelled from the spec:".
-/

namespace Spack

/-- A compiler spec: name and version (`spec.compiler` in the source). -/
structure CompilerSpec where
  name : String
  version : String
deriving DecidableEq

/-- The parts of a concretized spec that module generation reads:
name, version, compiler, architecture and the content ("dag") hash. -/
structure SpecInfo where
  name : String
  version : String
  compiler : CompilerSpec
  architecture : String
  dagHash : String
deriving DecidableEq

/-- `EnvModule.blacklisted` (modules.py lines 299-321): collect the whitelist
patterns and the blacklist patterns the spec satisfies; the module is
blacklisted iff there is no whitelist match and at least one blacklist
match.  `sat` abstracts `self.spec.satisfies`. -/
def blacklisted (sat : String → Bool) (whitelist blacklist : List String) : Bool :=
  (whitelist.filter sat).isEmpty && !((blacklist.filter sat).isEmpty)

/-- The blacklist test for one spec under a format's configuration, with the
satisfaction test `sat` supplied per spec (`module_types[module_name](x).blacklisted`). -/
def spec_blacklisted (sat : SpecInfo → String → Bool) (whitelist blacklist : List String)
    (x : SpecInfo) : Bool :=
  blacklisted (sat x) whitelist blacklist

/-- The five environment-modification variants (`spack.environment`). -/
inductive EnvCommandKind where
  | setEnv
  | unsetEnv
  | prependPath
  | appendPath
  | removePath
deriving DecidableEq

/-- Modelled from the spec: an environment modification "holds a variable
name, an optional value, and provenance (originating file/line) for
diagnostics" (`command.args` in the source). -/
structure EnvCommandArgs where
  name : String
  value : String
  context : String
  filename : String
  lineno : Nat
deriving DecidableEq

/-- One entry of an `EnvironmentModifications` sequence. -/
structure EnvCommand where
  kind : EnvCommandKind
  args : EnvCommandArgs
deriving DecidableEq

/-- The Python class name of a modification variant, as it appears in the
diagnostic `'Cannot handle command of type {command}'`. -/
def kind_name : EnvCommandKind → String
  | .setEnv => "SetEnv"
  | .unsetEnv => "UnsetEnv"
  | .prependPath => "PrependPath"
  | .appendPath => "AppendPath"
  | .removePath => "RemovePath"

/-- The diagnostic emitted for a modification kind missing from a format's
lookup table (the two `tty.warn` calls at modules.py lines 400-401). -/
structure Diagnostic where
  command : String
  context : String
  filename : String
  lineno : Nat
deriving DecidableEq

/-- `EnvModule.process_environment_command` (modules.py lines 395-401): each
command is rendered through the format's lookup table; a command whose kind
has no entry (Python `KeyError`) is skipped and a diagnostic naming the
kind and its source file/line is emitted; rendering then continues.  The
first component is the rendered lines, the second the diagnostics. -/
def process_environment_command (table : EnvCommandKind → Option (EnvCommandArgs → String)) :
    List EnvCommand → List String × List Diagnostic
  | [] => ([], [])
  | c :: rest =>
    let p := process_environment_command table rest
    match table c.kind with
    | some f => (f c.args :: p.1, p.2)
    | none => (p.1, ⟨kind_name c.kind, c.args.context, c.args.filename, c.args.lineno⟩ :: p.2)

/-- `Dotkit.environment_modifications_formats` (modules.py lines 423-426):
only `PrependPath` and `SetEnv` are supported. -/
def dotkit_formats : EnvCommandKind → Option (EnvCommandArgs → String)
  | .prependPath => some (fun a => "dk_alter " ++ a.name ++ " " ++ a.value ++ "\n")
  | .setEnv => some (fun a => "dk_setenv " ++ a.name ++ " " ++ a.value ++ "\n")
  | _ => none

/-- `filter_blacklisted` (modules.py lines 214-229): yield exactly the specs
that are not blacklisted for the given module type, in input order. -/
def filter_blacklisted (sat : SpecInfo → String → Bool) (whitelist blacklist : List String)
    (specs : List SpecInfo) : List SpecInfo :=
  specs.filter (fun x => !(spec_blacklisted sat whitelist blacklist x))

/-- Modelled from the spec: `join_path` / POSIX `os.path.join` on relative
components intercalates the path separator. -/
def join_path (parts : List String) : String :=
  match parts with
  | [] => ""
  | [p] => p
  | p :: ps => p ++ "/" ++ join_path ps

/-- `name.split('/')` followed by `join_path(*parts)` in `EnvModule.use_name`
(modules.py lines 284-285): path separators normalized for the host
filesystem.  Modelled from the spec: on POSIX this splits on the separator
and rejoins with the same separator. -/
def normalize_seps (s : String) : String :=
  String.mk (List.intercalate [Char.ofNat 47] (s.data.splitOn (Char.ofNat 47)))

/-- The default naming template `'{name}-{version}-{compiler.name}-{compiler.version}'`
(modules.py lines 432 and 475) filled with the spec's naming tokens. -/
def default_naming_format (s : SpecInfo) : String :=
  s.name ++ "-" ++ s.version ++ "-" ++ s.compiler.name ++ "-" ++ s.compiler.version

/-- `EnvModule.use_name` (modules.py lines 274-286): the filled naming scheme
with `'-' + dag_hash()` appended, then separators normalized.  `filled` is
the result of `naming_scheme.format(**naming_tokens)`. -/
def use_name (filled : String) (dag_hash : String) : String :=
  normalize_seps (filled ++ "-" ++ dag_hash)

/-- The name/version pair a hierarchy token maps to (the concrete provider
recorded in `requires`/`provides`). -/
structure TokenValue where
  name : String
  version : String
deriving DecidableEq

/-- Modelled from the spec: `str(value)` of a compiler entry renders
`name@version`, the form used in the `core_compilers` configuration list
(e.g. `core_compilers: [gcc@8.0]`). -/
def token_str (v : TokenValue) : String :=
  v.name ++ "@" ++ v.version

/-- `LmodModule.token_to_path` (modules.py lines 612-615): a compiler value
listed in the configured core compilers collapses to the literal segment
`Core`; anything else renders through `path_part = '{token.name}/{token.version}'`. -/
def token_to_path (core_compilers : List String) (name : String) (value : TokenValue) : String :=
  if name = "compiler" ∧ token_str value ∈ core_compilers then "Core"
  else value.name ++ "/" ++ value.version

/-- `LmodModule.use_name` (modules.py lines 624-626):
`token_to_path('', spec) + '-' + dag_hash(length=6)`.  Modelled from the
spec for the external `dag_hash(length=6)`: the 6-character short hash is
the prefix of the full content hash. -/
def lmod_use_name (core_compilers : List String) (s : SpecInfo) : String :=
  token_to_path core_compilers "" ⟨s.name, s.version⟩ ++ "-" ++ s.dagHash.take 6

/-- The per-instance state of `LmodModule.__init__` (modules.py lines
557-593): the share-path root, the hierarchy tokens (configured extras
followed by `['mpi', 'compiler']`), the configured core compilers, and the
`requires`/`provides` token maps. -/
structure LmodModule where
  path : String
  hierarchy_tokens : List String
  core_compilers : List String
  requires : List (String × TokenValue)
  provides : List (String × TokenValue)
  spec : SpecInfo
deriving DecidableEq

/-- `self.modules_root = join_path(LmodModule.path, self.spec.architecture)`
(modules.py line 560). -/
def modules_root (m : LmodModule) : String :=
  join_path [m.path, m.spec.architecture]

/-- `LmodModule.file_name` (modules.py lines 617-622): the hierarchy path is
built from `token_to_path(x, requires[x])` for each hierarchy token in
`requires`, and the file lives at
`join_path(modules_root, hierarchy_name, use_name + '.lua')`. -/
def file_name (m : LmodModule) : String :=
  join_path [modules_root m,
    join_path (m.hierarchy_tokens.filterMap
      (fun x => (List.lookup x m.requires).map (fun v => token_to_path m.core_compilers x v))),
    lmod_use_name m.core_compilers m.spec ++ ".lua"]

/-- `LmodModule._hierarchy_token_combinations` (modules.py lines 595-602):
all combinations of hierarchy tokens, of every size, that contain
`'compiler'`. -/
def hierarchy_token_combinations (m : LmodModule) : List (List String) :=
  ((List.range (m.hierarchy_tokens.length + 1)).flatMap
    (fun ii => List.sublistsLen ii m.hierarchy_tokens)).filter
    (fun item => "compiler" ∈ item)

/-- `LmodModule._hierarchy_to_be_provided` (modules.py lines 604-610): the
combinations containing at least one token this package provides. -/
def hierarchy_to_be_provided (m : LmodModule) : List (List String) :=
  (hierarchy_token_combinations m).filter
    (fun item => item.any (fun x => (List.lookup x m.provides).isSome))

/-- A token is available when it is in `requires` or in `provides`
(`available = requires updated with provides`, modules.py lines 631-633). -/
def is_available (m : LmodModule) (x : String) : Bool :=
  (List.lookup x m.requires).isSome || (List.lookup x m.provides).isSome

/-- `missing = [x for x in hierarchy_tokens if x not in available]`
(modules.py line 636). -/
def missing_tokens (m : LmodModule) : List String :=
  m.hierarchy_tokens.filter (fun x => !(is_available m x))

/-- The token subsets for which `LmodModule.modulepath_modifications`
(modules.py lines 673-682) emits a conditional MODULEPATH prepend-block:
nothing when the package itself provides `'compiler'`; otherwise the
combinations from `_hierarchy_to_be_provided` that contain at least one
missing token. -/
def modulepath_conditionals (m : LmodModule) : List (List String) :=
  if (List.lookup "compiler" m.provides).isSome then []
  else (hierarchy_to_be_provided m).filter
    (fun x => x.any (fun t => t ∈ missing_tokens m))

/-- A Python runtime error surfacing during `write()`; `Dotkit.prerequisite_format`
is `None`, so formatting a prerequisite raises `AttributeError`. -/
inductive PyError where
  | attributeError
deriving DecidableEq

/-- The data interpolated into the abort message of
`TclModule.module_specific_content` (modules.py lines 513-520): the spec,
the naming scheme and the conflict scheme that failed to align. -/
structure ConflictAbort where
  spec : String
  nformat : String
  cformat : String
deriving DecidableEq

/-- The ways `write()` can fail before producing a file. -/
inductive WriteAbort where
  | pyError : PyError → WriteAbort
  | conflictAbort : ConflictAbort → WriteAbort
deriving DecidableEq

/-- The per-format pieces `EnvModule.write` dispatches on: `use_name`, the
autoload template, the optional prerequisite template and the
environment-modification lookup table. -/
structure ModuleFormat where
  use_name_of : SpecInfo → String
  autoload_format : String → String
  prerequisite_format : Option (String → String)
  env_table : EnvCommandKind → Option (EnvCommandArgs → String)

/-- `EnvModule.autoload` (modules.py lines 387-389):
`autoload_format.format(module_file=m.use_name)`. -/
def autoload (fmt : ModuleFormat) (s : SpecInfo) : String :=
  fmt.autoload_format (fmt.use_name_of s)

/-- `EnvModule.prerequisite` (modules.py lines 391-393):
`prerequisite_format.format(module_file=m.use_name)`; when the format is
`None` (Dotkit, line 430) Python raises `AttributeError`. -/
def prerequisite (pf : Option (String → String)) (module_file : String) : Except PyError String :=
  match pf with
  | none => Except.error PyError.attributeError
  | some f => Except.ok (f module_file)

/-- The prerequisite loop of `write()` (modules.py lines 369-370), rendering
one line per use-name and stopping at the first Python error. -/
def prereq_lines (pf : Option (String → String)) : List String → Except PyError (List String)
  | [] => Except.ok []
  | u :: rest =>
    match prerequisite pf u with
    | Except.error e => Except.error e
    | Except.ok line =>
      match prereq_lines pf rest with
      | Except.error e => Except.error e
      | Except.ok ls => Except.ok (line :: ls)

/-- `len([x for x in string.Formatter().parse(line)]) > 1` (modules.py line
510): since the conflict line always ends with a literal newline, the parse
yields more than one segment exactly when the line contains a brace (a
placeholder field or an escaped brace). -/
def has_placeholder (line : String) : Bool :=
  line.data.any (fun c => c == Char.ofNat 123 || c == Char.ofNat 125)

/-- Python `s.split('/')`. -/
def py_split_slash (s : String) : List String :=
  (s.data.splitOn (Char.ofNat 47)).map String.mk

/-- The zip comparison of `TclModule.module_specific_content` (modules.py
line 511): some position of `zip(naming_scheme.split('/'), item.split('/'))`
has differing directories. -/
def scheme_mismatch (naming_scheme item : String) : Bool :=
  ((py_split_slash naming_scheme).zip (py_split_slash item)).any (fun p => p.1 != p.2)

/-- `TclModule.module_specific_content` (modules.py lines 503-522): each
conflict item becomes a `conflict` line; a line with placeholders whose
directories do not align with the naming scheme aborts generation
(`SystemExit`), otherwise the line is formatted with the naming tokens
(`fill` abstracts `line.format(**naming_tokens)`) and yielded. -/
def tcl_module_specific_content (spec_str naming_scheme : String) (fill : String → String) :
    List String → Except ConflictAbort (List String)
  | [] => Except.ok []
  | item :: rest =>
    let line := "conflict " ++ item ++ "\n"
    if has_placeholder line then
      if scheme_mismatch naming_scheme item then
        Except.error ⟨spec_str, naming_scheme, item⟩
      else
        match tcl_module_specific_content spec_str naming_scheme fill rest with
        | Except.error e => Except.error e
        | Except.ok ls => Except.ok (fill line :: ls)
    else
      match tcl_module_specific_content spec_str naming_scheme fill rest with
      | Except.error e => Except.error e
      | Except.ok ls => Except.ok (line :: ls)

/-- `EnvModule.write` (modules.py lines 323-378): a blacklisted spec is a
silent no-op; otherwise the content is assembled in memory as
header, autoload block, prerequisite block, environment block and
format-specific content, and only then written to `file_name` in one
operation.  A `PyError` or a conflict abort surfaces before anything is
written, so an error result carries no file. -/
def write (fmt : ModuleFormat) (sat : SpecInfo → String → Bool) (whitelist blacklist : List String)
    (header file_name_str : String) (autoloads prerequisites : List SpecInfo)
    (env : List EnvCommand) (specific : Except ConflictAbort (List String))
    (s : SpecInfo) : Except WriteAbort (Option (String × String)) :=
  if spec_blacklisted sat whitelist blacklist s then Except.ok none
  else
    match prereq_lines fmt.prerequisite_format
        ((filter_blacklisted sat whitelist blacklist prerequisites).map fmt.use_name_of) with
    | Except.error e => Except.error (WriteAbort.pyError e)
    | Except.ok pls =>
      match specific with
      | Except.error a => Except.error (WriteAbort.conflictAbort a)
      | Except.ok sls =>
        Except.ok (some (file_name_str,
          header
          ++ String.join ((filter_blacklisted sat whitelist blacklist autoloads).map (autoload fmt))
          ++ String.join pls
          ++ String.join (process_environment_command fmt.env_table env).1
          ++ String.join sls))

/-- `Dotkit.use_name`: the inherited `EnvModule.use_name` with the default
naming template and the full hash. -/
def dotkit_use_name (s : SpecInfo) : String :=
  use_name (default_naming_format s) s.dagHash

/-- The `Dotkit` format (modules.py lines 419-436): `dk_op` autoload,
`prerequisite_format = None`, and the two-entry modification table. -/
def dotkit_module : ModuleFormat :=
  ⟨dotkit_use_name, fun m => "dk_op " ++ m ++ "\n", none, dotkit_formats⟩

/-- A YAML-like configuration value: scalar, list or nested mapping
(Python association order preserved). -/
inductive CVal where
  | vstr : String → CVal
  | vlist : List CVal → CVal
  | vdict : List (String × CVal) → CVal

/-- Python iteration as used by `list.extend(update[key])`: a list yields
its items, a string its characters, a dict its keys. -/
def pyIter : CVal → List CVal
  | .vlist xs => xs
  | .vstr s => s.data.map (fun c => CVal.vstr (String.singleton c))
  | .vdict d => d.map (fun p => CVal.vstr p.1)

/-- Python `target[key] = value`: replace in place if the key exists,
append otherwise. -/
def setKey (k : String) (v : CVal) : List (String × CVal) → List (String × CVal)
  | [] => [(k, v)]
  | (k2, v2) :: rest => if k2 == k then (k, v) :: rest else (k2, v2) :: setKey k v rest

mutual

/-- `update_dictionary_extending_lists` (modules.py lines 151-159): for each
key of `update` in order, a list value in `target` is extended, a dict
value is merged recursively (Python raises `TypeError`, here `none`, when
the update value is not a mapping), anything else is overwritten or
inserted.  The per-key body is `update_one_key`. -/
def update_dictionary_extending_lists (target : List (String × CVal)) :
    List (String × CVal) → Option (List (String × CVal))
  | [] => some target
  | (k, uv) :: rest =>
    match update_one_key target k uv with
    | some t2 => update_dictionary_extending_lists t2 rest
    | none => none

/-- The body of the `for key in update` loop of
`update_dictionary_extending_lists`: dispatch on the type of the existing
target value. -/
def update_one_key (target : List (String × CVal)) (k : String) :
    CVal → Option (List (String × CVal))
  | CVal.vdict u =>
    match List.lookup k target with
    | some (CVal.vlist xs) => some (setKey k (CVal.vlist (xs ++ pyIter (CVal.vdict u))) target)
    | some (CVal.vdict d) =>
      (update_dictionary_extending_lists d u).map (fun d2 => setKey k (CVal.vdict d2) target)
    | _ => some (setKey k (CVal.vdict u) target)
  | uv =>
    match List.lookup k target with
    | some (CVal.vlist xs) => some (setKey k (CVal.vlist (xs ++ pyIter uv)) target)
    | some (CVal.vdict _) => none
    | _ => some (setKey k uv target)

end

/-- Python `spec.endswith(':')`: the last character is the override marker. -/
def ends_with_colon (s : String) : Bool :=
  match s.data.getLast? with
  | some c => c == Char.ofNat 58
  | none => false

/-- Python `spec.strip(':')`: remove leading and trailing colons. -/
def strip_colon (s : String) : String :=
  String.mk (((s.data.dropWhile (fun c => c == Char.ofNat 58)).reverse.dropWhile
    (fun c => c == Char.ofNat 58)).reverse)

/-- The rule-merging loop of `parse_config_options` (modules.py lines
181-190): rules are visited in order; a rule whose pattern the spec
satisfies is merged into the accumulated actions, except that a pattern
ending in `':'` first discards everything accumulated so far. -/
def parse_config_rules (sat : String → Bool) :
    List (String × List (String × CVal)) → List (String × CVal) → Option (List (String × CVal))
  | [], acc => some acc
  | (p, conf) :: rest, acc =>
    if sat (strip_colon p) then
      match update_dictionary_extending_lists (if ends_with_colon p then [] else acc) conf with
      | some acc2 => parse_config_rules sat rest acc2
      | none => none
    else parse_config_rules sat rest acc

/-- A dependency graph, presented as the unfolding from its root: each node
carries the spec it stands for and the subtrees of its direct dependencies
(shared nodes of the DAG appear once per incoming path and are
de-duplicated by the traversal's cover). -/
inductive DepTree where
  | node : String → List DepTree → DepTree

mutual

/-- Modelled from the spec: the black-box
`spec.traverse(order='post', depth=True, cover='nodes', root=False)` is a
depth-first post-order walk yielding each node once, at its first-visit
depth, threading the set of already-covered nodes.  The first component is
the visit list, the second the covered set. -/
def traverse_post (seen : List String) (d : Nat) : DepTree → List (Nat × String) × List String
  | .node x deps =>
    if x ∈ seen then ([], seen)
    else
      let p := traverse_post_list (x :: seen) (d + 1) deps
      (p.1 ++ [(d, x)], p.2)

/-- The walk of `traverse_post` over a list of sibling subtrees, threading
the covered set left to right. -/
def traverse_post_list (seen : List String) (d : Nat) : List DepTree → List (Nat × String) × List String
  | [] => ([], seen)
  | t :: ts =>
    let p := traverse_post seen d t
    let q := traverse_post_list p.2 d ts
    (p.1 ++ q.1, q.2)

end

/-- The spec a tree node stands for. -/
def root_name : DepTree → String
  | .node x _ => x

mutual

/-- Every node name occurring in the tree (with repetition for shared
nodes). -/
def tree_ids : DepTree → List String
  | .node x deps => x :: tree_ids_list deps

/-- `tree_ids` over a list of subtrees. -/
def tree_ids_list : List DepTree → List String
  | [] => []
  | t :: ts => tree_ids t ++ tree_ids_list ts

end

mutual

/-- The direct-dependency edges of the graph: `(a, b)` means the package
named `a` depends directly on the package named `b`. -/
def tree_edges : DepTree → List (String × String)
  | .node x deps => deps.map (fun c => (x, root_name c)) ++ tree_edges_list deps

/-- `tree_edges` over a list of subtrees. -/
def tree_edges_list : List DepTree → List (String × String)
  | [] => []
  | t :: ts => tree_edges t ++ tree_edges_list ts

end

/-- Python string comparison: strict lexicographic order on the character
sequences. -/
def chars_lt : List Char → List Char → Bool
  | [], [] => false
  | [], _ :: _ => true
  | _ :: _, [] => false
  | a :: as, b :: bs => a < b || (a == b && chars_lt as bs)

/-- Ascending lexicographic comparison of `(depth, spec)` tuples, as Python
compares the pairs yielded by the traversal (the spec component modelled by
its name; `x ≤ y` is `¬ y < x`). -/
def pair_le (a b : Nat × String) : Bool :=
  decide (a.1 < b.1) || (decide (a.1 = b.1) && !(chars_lt b.2.data a.2.data))

/-- `sorted(..., reverse=True)` orders by the flipped comparison. -/
def descending_le (a b : Nat × String) : Bool :=
  pair_le b a

/-- The traversal as `dependencies` consumes it: post-order and
depth-annotated with the root excluded (`root=False`); in post-order the
root is the last visit. -/
def spec_traverse (t : DepTree) : List (Nat × String) :=
  (traverse_post [] 0 t).1.dropLast

/-- `[xx for ii, xx in l if not (xx in seen or seen_add(xx))]` (modules.py
line 148): keep the first occurrence of each spec, dropping the depths. -/
def dedup_seen (seen : List String) : List (Nat × String) → List String
  | [] => []
  | p :: rest =>
    if p.2 ∈ seen then dedup_seen seen rest
    else p.2 :: dedup_seen (p.2 :: seen) rest

/-- `dependencies(spec, 'all')` (modules.py lines 145-148): sort the
traversal results descending (`sorted(..., reverse=True)`), then
de-duplicate keeping first occurrences. -/
def dependencies (t : DepTree) : List String :=
  dedup_seen [] (List.mergeSort (spec_traverse t) descending_le)

mutual

/-- Structural decidable equality for dependency trees. -/
def DepTree.decEq : (a b : DepTree) → Decidable (a = b)
  | .node x xs, .node y ys =>
    match String.decEq x y with
    | isFalse h => isFalse (fun he => by injection he with h1 _; exact h h1)
    | isTrue h1 =>
      match DepTree.decEqList xs ys with
      | isFalse h => isFalse (fun he => by injection he with _ h2; exact h h2)
      | isTrue h2 => isTrue (by rw [h1, h2])

/-- Structural decidable equality for lists of dependency trees. -/
def DepTree.decEqList : (as bs : List DepTree) → Decidable (as = bs)
  | [], [] => isTrue rfl
  | [], _ :: _ => isFalse (by intro h; cases h)
  | _ :: _, [] => isFalse (by intro h; cases h)
  | a :: as, b :: bs =>
    match DepTree.decEq a b with
    | isFalse h => isFalse (fun he => by injection he with h1 _; exact h h1)
    | isTrue h1 =>
      match DepTree.decEqList as bs with
      | isFalse h => isFalse (fun he => by injection he with _ h2; exact h h2)
      | isTrue h2 => isTrue (by rw [h1, h2])

end

instance : DecidableEq DepTree := DepTree.decEq

mutual

/-- Every node occurrence of a tree, the tree itself included. -/
def subtrees : DepTree → List DepTree
  | .node x deps => DepTree.node x deps :: subtrees_list deps

/-- `subtrees` over a list of subtrees. -/
def subtrees_list : List DepTree → List DepTree
  | [] => []
  | t :: ts => subtrees t ++ subtrees_list ts

end

mutual

/-- Acyclicity of the unfolded graph: no node's name recurs among its
descendants (a concretized spec graph has no cycles). -/
def self_ok : DepTree → Bool
  | .node x deps => !(decide (x ∈ tree_ids_list deps)) && self_ok_list deps

/-- `self_ok` over a list of subtrees. -/
def self_ok_list : List DepTree → Bool
  | [] => true
  | t :: ts => self_ok t && self_ok_list ts

end

/-- Coherence of the unfolded graph: two occurrences of the same node name
are equal trees (the tree is the unfolding of a DAG, where a shared
dependency has one identity). -/
def coherent_b (t : DepTree) : Bool :=
  (subtrees t).all (fun a => (subtrees t).all (fun b =>
    !(root_name a == root_name b) || decide (a = b)))

/-- The covering invariant of the traversal: every already-covered node
occurrence that is not currently being expanded (not gray) has all its
descendants covered too. -/
def covered_closed (T : DepTree) (seen gray : List String) : Prop :=
  ∀ (y : String) (ds : List DepTree), DepTree.node y ds ∈ subtrees T → y ∈ seen →
    ¬ y ∈ gray → ∀ z ∈ tree_ids_list ds, z ∈ seen

/-! Concrete instances used by witnesses and counterexamples. -/

/-- The TCL modification table (modules.py lines 460-466). -/
def tcl_formats : EnvCommandKind → Option (EnvCommandArgs → String)
  | .prependPath => some (fun a => "prepend-path " ++ a.name ++ " \"" ++ a.value ++ "\"\n")
  | .appendPath => some (fun a => "append-path " ++ a.name ++ " \"" ++ a.value ++ "\"\n")
  | .removePath => some (fun a => "remove-path " ++ a.name ++ " \"" ++ a.value ++ "\"\n")
  | .setEnv => some (fun a => "setenv " ++ a.name ++ " \"" ++ a.value ++ "\"\n")
  | .unsetEnv => some (fun a => "unsetenv " ++ a.name ++ "\n")

/-- `TclModule.use_name`: the inherited `EnvModule.use_name` with the default
naming template and the full hash. -/
def tcl_use_name (s : SpecInfo) : String :=
  use_name (default_naming_format s) s.dagHash

/-- The `TclModule` format (modules.py lines 456-475). -/
def tcl_module : ModuleFormat :=
  ⟨tcl_use_name,
   fun m => "if ![ is-loaded " ++ m ++ " ] \x7b\n    puts stderr \"Autoloading " ++ m
     ++ "\"\n    module load " ++ m ++ "\n\x7d\n\n",
   some (fun m => "prereq " ++ m ++ "\n"),
   tcl_formats⟩

/-- A sample spec. -/
def zlib_spec : SpecInfo := ⟨"zlib", "1.2.8", ⟨"gcc", "4.9"⟩, "linux-x86_64", "aaaaaa111111"⟩

/-- A sample spec whose name a blacklist pattern matches. -/
def badpkg_spec : SpecInfo := ⟨"badpkg", "0.1", ⟨"gcc", "4.9"⟩, "linux-x86_64", "bbbbbb222222"⟩

/-- A sample spec for an mpi provider. -/
def openmpi_spec : SpecInfo := ⟨"openmpi", "1.10.2", ⟨"gcc", "4.9"⟩, "linux-x86_64", "cccccc333333"⟩

/-- A sample leaf package spec compiled with a core compiler. -/
def pkg_spec : SpecInfo := ⟨"pkg", "1.0", ⟨"gcc", "8.0"⟩, "linux-x86_64", "abcdef789012"⟩

/-- A satisfaction test matching a pattern exactly when it equals the spec
name. -/
def sat_name : SpecInfo → String → Bool := fun s p => s.name == p

/-- An Lmod module for an mpi provider under the default two-token
hierarchy: it requires a compiler, provides mpi, and no token is missing. -/
def m_mpi : LmodModule :=
  ⟨"share/spack/lmod", ["mpi", "compiler"], [],
   [("compiler", ⟨"gcc", "4.9"⟩)], [("mpi", ⟨"openmpi", "1.10.2"⟩)], openmpi_spec⟩

/-- An Lmod module for an mpi provider under a three-token hierarchy with
`lapack` configured as an extra token, which is then missing. -/
def m_mpi3 : LmodModule :=
  ⟨"share/spack/lmod", ["lapack", "mpi", "compiler"], [],
   [("compiler", ⟨"gcc", "4.9"⟩)], [("mpi", ⟨"openmpi", "1.10.2"⟩)], openmpi_spec⟩

/-- An Lmod module for a plain package whose compiler is configured as a
core compiler. -/
def m_core : LmodModule :=
  ⟨"share/spack/lmod", ["mpi", "compiler"], ["gcc@8.0"],
   [("compiler", ⟨"gcc", "8.0"⟩)], [], pkg_spec⟩

/-- A sample configuration rule-set with a list-valued, a scalar and a
nested mapping key. -/
def conf_target : List (String × CVal) :=
  [("suffixes", CVal.vlist [CVal.vstr "a"]),
   ("mode", CVal.vstr "tcl"),
   ("env", CVal.vdict [("PATH", CVal.vlist [CVal.vstr "p1"])])]

/-- A second rule-set over the same keys. -/
def conf_update : List (String × CVal) :=
  [("suffixes", CVal.vlist [CVal.vstr "b"]),
   ("mode", CVal.vstr "lua"),
   ("env", CVal.vdict [("PATH", CVal.vlist [CVal.vstr "p2"])])]

/-- The dependency graph refuting the claimed ordering: `root` depends on
`alib` and on `zlib`, and `zlib` depends on `alib`; `alib` is first covered
at depth 1, so both dependencies carry depth 1 and the descending sort
breaks the tie by name. -/
def cex_tree : DepTree :=
  .node "root" [.node "alib" [], .node "zlib" [.node "alib" []]]

/-- A chain graph with dependencies at two different depths. -/
def wit_tree : DepTree :=
  .node "root" [.node "mid" [.node "leaf" []]]


/-! ## Helper lemmas -/

/-- Rendering prerequisites with a present format template cannot fail and
maps the template over the use-names. -/
theorem prereq_lines_some (pf : String → String) (l : List String) :
    prereq_lines (some pf) l = Except.ok (l.map pf) := by
  induction l with
  | nil => rfl
  | cons u rest ih => simp [prereq_lines, prerequisite, ih]

/-- Rendering a non-empty prerequisite list with a `None` template raises
`AttributeError`. -/
theorem prereq_lines_none (l : List String) (h : l ≠ []) :
    prereq_lines none l = Except.error PyError.attributeError := by
  cases l with
  | nil => exact absurd rfl h
  | cons u rest => rfl

/-- Splitting on the separator and rejoining is the identity. -/
theorem normalize_seps_eq (s : String) : normalize_seps s = s := by
  apply String.ext
  show List.intercalate [Char.ofNat 47] (s.data.splitOn (Char.ofNat 47)) = s.data
  exact List.intercalate_splitOn s.data (Char.ofNat 47)

/-- A rendered `name/version` segment contains a slash, so it is never the
literal segment `Core`. -/
theorem slash_ne_core (a b : String) : a ++ "/" ++ b ≠ "Core" := by
  intro h
  have h2 : (Char.ofNat 47) ∈ (a ++ "/" ++ b).data := by
    rw [String.data_append, String.data_append]
    have hm : (Char.ofNat 47) ∈ ("/" : String).data := by decide
    exact List.mem_append.mpr (Or.inl (List.mem_append.mpr (Or.inr hm)))
  rw [h] at h2
  exact absurd h2 (by decide)

/-- `token_to_path` yields `Core` exactly for a compiler value listed in the
configured core compilers. -/
theorem token_to_path_core_iff (cc : List String) (t : String) (v : TokenValue) :
    token_to_path cc t v = "Core" ↔ (t = "compiler" ∧ token_str v ∈ cc) := by
  unfold token_to_path
  by_cases h : t = "compiler" ∧ token_str v ∈ cc
  · simp [h]
  · simp only [h, if_false, iff_false]
    exact fun hc => absurd hc (slash_ne_core v.name v.version)

/-- `join_path` on a two-or-more element list peels the head. -/
theorem join_path_cons (p : String) (ps : List String) (h : ps ≠ []) :
    join_path (p :: ps) = p ++ "/" ++ join_path ps := by
  cases ps with
  | nil => exact absurd rfl h
  | cons q qs => rfl

/-- Joining after appending a last component. -/
theorem join_path_append_last (ps : List String) (c : String) (h : ps ≠ []) :
    join_path (ps ++ [c]) = join_path ps ++ "/" ++ c := by
  induction ps with
  | nil => exact absurd rfl h
  | cons p ps ih =>
    cases ps with
    | nil => simp [join_path]
    | cons q qs =>
      have h1 : join_path ((p :: q :: qs) ++ [c]) = p ++ "/" ++ join_path ((q :: qs) ++ [c]) := by
        rw [List.cons_append]
        exact join_path_cons p ((q :: qs) ++ [c]) (by simp)
      rw [h1, ih (by simp), join_path_cons p (q :: qs) (by simp)]
      simp [String.append_assoc]

/-- A nested `join_path` of a non-empty middle segment list flattens. -/
theorem join_path_flatten (a : String) (ps : List String) (c : String) (h : ps ≠ []) :
    join_path [a, join_path ps, c] = join_path (a :: (ps ++ [c])) := by
  rw [join_path_cons a (ps ++ [c]) (by simp), join_path_append_last ps c h]
  rfl

/-- `filterMap` over an option-valued projection is filtering on presence
followed by mapping the forced value. -/
theorem filterMap_eq_filter_map {α β γ : Type} (f : α → Option β) (g : α → β → γ) (d : β)
    (l : List α) :
    l.filterMap (fun x => (f x).map (g x)) =
      (l.filter (fun x => (f x).isSome)).map (fun x => g x ((f x).getD d)) := by
  induction l with
  | nil => rfl
  | cons a l ih => cases h : f a <;> simp [List.filterMap_cons, List.filter_cons, h, ih]

/-! ## Claims -/

/-- C5: for every spec and format configuration, `blacklisted` is true iff
the spec satisfies at least one blacklist pattern and no whitelist pattern;
in particular a spec matching both a whitelist and a blacklist pattern is
not blacklisted. -/
theorem blacklisted_spec :
    (∀ (sat : String → Bool) (wl bl : List String),
      blacklisted sat wl bl = true ↔
        ((∃ b ∈ bl, sat b = true) ∧ ∀ w ∈ wl, sat w = false)) ∧
    (∀ (sat : String → Bool) (wl bl : List String) (w b : String),
      w ∈ wl → sat w = true → b ∈ bl → sat b = true →
        blacklisted sat wl bl = false) := by
  constructor
  · intro sat wl bl
    constructor
    · intro h
      unfold blacklisted at h
      rw [Bool.and_eq_true] at h
      obtain ⟨h1, h2⟩ := h
      rw [List.isEmpty_iff, List.filter_eq_nil_iff] at h1
      have h3 : (bl.filter sat).isEmpty = false := by
        cases hb : (bl.filter sat).isEmpty with
        | false => rfl
        | true => rw [hb] at h2; cases h2
      rw [List.isEmpty_eq_false_iff_exists_mem] at h3
      obtain ⟨b, hb⟩ := h3
      rw [List.mem_filter] at hb
      refine ⟨⟨b, hb.1, hb.2⟩, fun w hw => ?_⟩
      have h4 := h1 w hw
      cases hsw : sat w with
      | false => rfl
      | true => exact absurd hsw h4
    · rintro ⟨⟨b, hb, hsb⟩, h2⟩
      unfold blacklisted
      rw [Bool.and_eq_true]
      constructor
      · rw [List.isEmpty_iff, List.filter_eq_nil_iff]
        intro w hw
        simp [h2 w hw]
      · have hmem : b ∈ bl.filter sat := List.mem_filter.mpr ⟨hb, hsb⟩
        cases hbe : (bl.filter sat).isEmpty with
        | false => rfl
        | true =>
          rw [List.isEmpty_iff] at hbe
          rw [hbe] at hmem
          cases hmem
  · intro sat wl bl w b hw hsw _hb _hsb
    have hmem : w ∈ wl.filter sat := List.mem_filter.mpr ⟨hw, hsw⟩
    cases hfe : (wl.filter sat).isEmpty with
    | false => simp [blacklisted, hfe]
    | true =>
      rw [List.isEmpty_iff] at hfe
      rw [hfe] at hmem
      cases hmem

/-- Witness for `blacklisted_spec` at a concrete configuration in which the
pattern "badpkg" is both whitelisted and blacklisted. -/
theorem blacklisted_spec_witness :
    (blacklisted (fun p => p == "badpkg") ["badpkg"] ["badpkg"] = true ↔
      ((∃ b ∈ ["badpkg"], (fun p : String => p == "badpkg") b = true) ∧
        ∀ w ∈ ["badpkg"], (fun p : String => p == "badpkg") w = false)) ∧
    blacklisted (fun p => p == "badpkg") ["badpkg"] ["badpkg"] = false :=
  ⟨blacklisted_spec.1 (fun p => p == "badpkg") ["badpkg"] ["badpkg"],
   blacklisted_spec.2 (fun p => p == "badpkg") ["badpkg"] ["badpkg"] "badpkg" "badpkg"
     (by decide) (by decide) (by decide) (by decide)⟩


/-- C7: rendering an environment-modification sequence never fails: entries
whose kind has an entry in the format table are rendered in order, and each
unsupported entry is skipped with a diagnostic naming the modification kind
and its originating file and line. -/
theorem process_environment_command_spec
    (table : EnvCommandKind → Option (EnvCommandArgs → String)) (env : List EnvCommand) :
    (process_environment_command table env).1
        = env.filterMap (fun c => (table c.kind).map (fun f => f c.args)) ∧
    (process_environment_command table env).2
        = (env.filter (fun c => (table c.kind).isNone)).map
            (fun c => ⟨kind_name c.kind, c.args.context, c.args.filename, c.args.lineno⟩) := by
  induction env with
  | nil => exact ⟨rfl, rfl⟩
  | cons c rest ih =>
    cases h : table c.kind with
    | none =>
      simp [process_environment_command, h, List.filterMap_cons, List.filter_cons, ih.1, ih.2]
    | some f =>
      simp [process_environment_command, h, List.filterMap_cons, List.filter_cons, ih.1, ih.2]

/-- C10: `filter_blacklisted` keeps exactly the non-blacklisted specs in
their original relative order, and `write` builds its autoload and
prerequisite blocks from the filtered lists. -/
theorem filter_blacklisted_spec (sat : SpecInfo → String → Bool) (wl bl : List String) :
    (∀ specs : List SpecInfo, List.Sublist (filter_blacklisted sat wl bl specs) specs) ∧
    (∀ (specs : List SpecInfo) (x : SpecInfo),
      x ∈ filter_blacklisted sat wl bl specs ↔
        (x ∈ specs ∧ spec_blacklisted sat wl bl x = false)) ∧
    (∀ (fmt : ModuleFormat) (pf : String → String) (header fn : String)
        (autoloads prerequisites : List SpecInfo) (env : List EnvCommand)
        (sls : List String) (s : SpecInfo),
      fmt.prerequisite_format = some pf →
      spec_blacklisted sat wl bl s = false →
      write fmt sat wl bl header fn autoloads prerequisites env (Except.ok sls) s
        = Except.ok (some (fn,
            header
            ++ String.join ((filter_blacklisted sat wl bl autoloads).map (autoload fmt))
            ++ String.join (((filter_blacklisted sat wl bl prerequisites).map fmt.use_name_of).map pf)
            ++ String.join (process_environment_command fmt.env_table env).1
            ++ String.join sls))) := by
  refine ⟨fun specs => List.filter_sublist specs, fun specs x => ?_, ?_⟩
  · simp [filter_blacklisted, List.mem_filter]
  · intro fmt pf header fn autoloads prerequisites env sls s hpf hs
    unfold write
    rw [hs, hpf, prereq_lines_some]
    simp

/-- Witness for `filter_blacklisted_spec`: the spec named badpkg is filtered
out of both blocks while zlib is kept. -/
theorem filter_blacklisted_spec_witness :
    List.Sublist (filter_blacklisted sat_name [] ["badpkg"] [zlib_spec, badpkg_spec])
      [zlib_spec, badpkg_spec] ∧
    (zlib_spec ∈ filter_blacklisted sat_name [] ["badpkg"] [zlib_spec, badpkg_spec] ↔
      (zlib_spec ∈ [zlib_spec, badpkg_spec] ∧
        spec_blacklisted sat_name [] ["badpkg"] zlib_spec = false)) ∧
    write tcl_module sat_name [] ["badpkg"] "hdr" "fn" [zlib_spec, badpkg_spec]
        [zlib_spec, badpkg_spec] [] (Except.ok []) zlib_spec
      = Except.ok (some ("fn",
          "hdr"
          ++ String.join ((filter_blacklisted sat_name [] ["badpkg"]
              [zlib_spec, badpkg_spec]).map (autoload tcl_module))
          ++ String.join (((filter_blacklisted sat_name [] ["badpkg"]
              [zlib_spec, badpkg_spec]).map tcl_module.use_name_of).map
                (fun m => "prereq " ++ m ++ "\n"))
          ++ String.join (process_environment_command tcl_module.env_table []).1
          ++ String.join [])) :=
  ⟨(filter_blacklisted_spec sat_name [] ["badpkg"]).1 [zlib_spec, badpkg_spec],
   (filter_blacklisted_spec sat_name [] ["badpkg"]).2.1 [zlib_spec, badpkg_spec] zlib_spec,
   (filter_blacklisted_spec sat_name [] ["badpkg"]).2.2 tcl_module
     (fun m => "prereq " ++ m ++ "\n") "hdr" "fn" [zlib_spec, badpkg_spec]
     [zlib_spec, badpkg_spec] [] [] zlib_spec rfl (by decide)⟩

/-- C6 counterexample: for the Lmod format, `use_name` is not the filled
naming template with the short hash appended: for `pkg@1.0%gcc@8.0` the
template gives `pkg-1.0-gcc-8.0-abcdef` while the code produces
`pkg/1.0-abcdef`. -/
theorem use_name_counterexample :
    lmod_use_name [] pkg_spec
      ≠ use_name (default_naming_format pkg_spec) (pkg_spec.dagHash.take 6) := by
  decide

/-- C6 (amended): for the TCL and dotkit formats `use_name` is the filled
naming template with `-` and the full hash appended (separator
normalization is the identity), deterministic with the hash only changing
the suffix; the Lmod `use_name` ignores the naming template and is
`name/version` with `-` and the 6-character short hash appended. -/
theorem use_name_spec :
    (∀ filled dh : String, use_name filled dh = filled ++ "-" ++ dh) ∧
    (∀ (cc : List String) (s : SpecInfo),
      lmod_use_name cc s = s.name ++ "/" ++ s.version ++ "-" ++ s.dagHash.take 6) := by
  constructor
  · intro filled dh
    exact normalize_seps_eq (filled ++ "-" ++ dh)
  · intro cc s
    have h : ¬(("" : String) = "compiler" ∧
        token_str ⟨s.name, s.version⟩ ∈ cc) := by
      rintro ⟨h1, -⟩
      exact absurd h1 (by decide)
    simp [lmod_use_name, token_to_path, h]

/-- C9 counterexample: writing a dotkit module file for a spec whose
resolved prerequisite list is non-empty fails with `AttributeError`
(`Dotkit.prerequisite_format` is `None`), rather than being a pass-through
no-op. -/
theorem dotkit_prerequisite_counterexample :
    write dotkit_module sat_name [] [] "hdr" "fn" [] [zlib_spec] [] (Except.ok []) pkg_spec
      = Except.error (WriteAbort.pyError PyError.attributeError) := rfl

/-- C9 (amended): the dotkit format has no prerequisite template; a write
whose resolved, non-blacklisted prerequisite list is non-empty fails with
`AttributeError` before any file output, and a write whose filtered
prerequisite list is empty contributes no prerequisite lines and succeeds. -/
theorem dotkit_prerequisite_spec
    (sat : SpecInfo → String → Bool) (wl bl : List String) (header fn : String)
    (autoloads prerequisites : List SpecInfo) (env : List EnvCommand) (s : SpecInfo)
    (hs : spec_blacklisted sat wl bl s = false) :
    (filter_blacklisted sat wl bl prerequisites ≠ [] →
      write dotkit_module sat wl bl header fn autoloads prerequisites env (Except.ok []) s
        = Except.error (WriteAbort.pyError PyError.attributeError)) ∧
    (filter_blacklisted sat wl bl prerequisites = [] →
      write dotkit_module sat wl bl header fn autoloads prerequisites env (Except.ok []) s
        = Except.ok (some (fn,
            header
            ++ String.join ((filter_blacklisted sat wl bl autoloads).map (autoload dotkit_module))
            ++ String.join []
            ++ String.join (process_environment_command dotkit_module.env_table env).1
            ++ String.join []))) := by
  constructor
  · intro hne
    unfold write
    rw [hs]
    have hmap : (filter_blacklisted sat wl bl prerequisites).map dotkit_module.use_name_of ≠ [] := by
      simpa using hne
    have hfmt : dotkit_module.prerequisite_format = none := rfl
    rw [hfmt, prereq_lines_none _ hmap]
    rfl
  · intro hnil
    unfold write
    rw [hs, hnil]
    rfl

/-- Witness for `dotkit_prerequisite_spec`: a non-empty prerequisite list
makes the dotkit write fail, an empty one leaves no prerequisite lines. -/
theorem dotkit_prerequisite_spec_witness :
    write dotkit_module sat_name [] [] "hdr" "fn" [] [zlib_spec] [] (Except.ok []) pkg_spec
      = Except.error (WriteAbort.pyError PyError.attributeError) ∧
    write dotkit_module sat_name [] [] "hdr" "fn" [] [] [] (Except.ok []) pkg_spec
      = Except.ok (some ("fn",
          "hdr"
          ++ String.join ((filter_blacklisted sat_name [] [] []).map (autoload dotkit_module))
          ++ String.join []
          ++ String.join (process_environment_command dotkit_module.env_table []).1
          ++ String.join [])) :=
  ⟨(dotkit_prerequisite_spec sat_name [] [] "hdr" "fn" [] [zlib_spec] [] pkg_spec
      (by decide)).1 (by decide),
   (dotkit_prerequisite_spec sat_name [] [] "hdr" "fn" [] [] [] pkg_spec
      (by decide)).2 rfl⟩


/-- C3: the Lmod physical path is
`join(root, architecture, token_to_path(t, requires[t]) for the hierarchy
tokens present in requires, use_name + '.lua')`, and `token_to_path`
collapses to `Core` exactly for a compiler value in the configured core
compilers. -/
theorem file_name_spec (m : LmodModule) (cv : TokenValue)
    (hreq : List.lookup "compiler" m.requires = some cv)
    (htok : "compiler" ∈ m.hierarchy_tokens) :
    (file_name m
      = join_path (m.path :: m.spec.architecture ::
          ((m.hierarchy_tokens.filter (fun t => (List.lookup t m.requires).isSome)).map
            (fun t => token_to_path m.core_compilers t
              ((List.lookup t m.requires).getD ⟨"", ""⟩))
            ++ [lmod_use_name m.core_compilers m.spec ++ ".lua"]))) ∧
    (∀ (t : String) (v : TokenValue),
      token_to_path m.core_compilers t v = "Core" ↔
        (t = "compiler" ∧ token_str v ∈ m.core_compilers)) := by
  constructor
  · have hparts := filterMap_eq_filter_map (fun t => List.lookup t m.requires)
      (fun t v => token_to_path m.core_compilers t v) ⟨"", ""⟩ m.hierarchy_tokens
    have hmem : "compiler" ∈ m.hierarchy_tokens.filter
        (fun t => (List.lookup t m.requires).isSome) :=
      List.mem_filter.mpr ⟨htok, by rw [hreq]; rfl⟩
    have hne : (m.hierarchy_tokens.filter (fun t => (List.lookup t m.requires).isSome)).map
        (fun t => token_to_path m.core_compilers t
          ((List.lookup t m.requires).getD ⟨"", ""⟩)) ≠ [] := by
      intro hcon
      rw [List.map_eq_nil_iff] at hcon
      rw [hcon] at hmem
      cases hmem
    unfold file_name
    rw [hparts]
    rw [join_path_cons m.path _ (by simp), join_path_cons m.spec.architecture _ (by simp),
      join_path_append_last _ _ hne]
    simp [join_path, modules_root, String.append_assoc]
  · exact fun t v => token_to_path_core_iff m.core_compilers t v

/-- Witness for `file_name_spec` at a module whose compiler is a configured
core compiler. -/
theorem file_name_spec_witness :
    (file_name m_core
      = join_path (m_core.path :: m_core.spec.architecture ::
          ((m_core.hierarchy_tokens.filter (fun t => (List.lookup t m_core.requires).isSome)).map
            (fun t => token_to_path m_core.core_compilers t
              ((List.lookup t m_core.requires).getD ⟨"", ""⟩))
            ++ [lmod_use_name m_core.core_compilers m_core.spec ++ ".lua"]))) ∧
    (token_to_path m_core.core_compilers "compiler" ⟨"gcc", "8.0"⟩ = "Core" ↔
      ("compiler" = "compiler" ∧ token_str ⟨"gcc", "8.0"⟩ ∈ m_core.core_compilers)) :=
  ⟨(file_name_spec m_core ⟨"gcc", "8.0"⟩ (by decide) (by decide)).1,
   (file_name_spec m_core ⟨"gcc", "8.0"⟩ (by decide) (by decide)).2 "compiler" ⟨"gcc", "8.0"⟩⟩

/-- C2 counterexample: `m_mpi` provides mpi (not compiler) under the default
hierarchy; the subset `["mpi", "compiler"]` contains "compiler" and
intersects provides, yet no conditional MODULEPATH block is emitted for it,
because every token is already required or provided. -/
theorem modulepath_conditionals_counterexample :
    List.lookup "compiler" m_mpi.provides = none ∧
    List.Sublist ["mpi", "compiler"] m_mpi.hierarchy_tokens ∧
    "compiler" ∈ (["mpi", "compiler"] : List String) ∧
    (∃ t ∈ (["mpi", "compiler"] : List String), (List.lookup t m_mpi.provides).isSome) ∧
    ¬ (["mpi", "compiler"] ∈ modulepath_conditionals m_mpi) := by
  refine ⟨by decide, ?_, by decide, ?_, by decide⟩
  · exact List.Sublist.refl _
  · exact ⟨"mpi", by decide, by decide⟩

/-- C2 (amended): for a package that does not provide "compiler", the
emitted conditional blocks are exactly the hierarchy-token subsets that
contain "compiler", contain a provided token, and contain a missing token
(one neither required nor provided). -/
theorem modulepath_conditionals_spec (m : LmodModule) (s : List String)
    (hc : List.lookup "compiler" m.provides = none) :
    s ∈ modulepath_conditionals m ↔
      (List.Sublist s m.hierarchy_tokens ∧ "compiler" ∈ s ∧
        (∃ t ∈ s, (List.lookup t m.provides).isSome) ∧
        (∃ t ∈ s, t ∈ missing_tokens m)) := by
  have hX : ∀ s2 : List String, s2 ∈ (List.range (m.hierarchy_tokens.length + 1)).flatMap
      (fun ii => List.sublistsLen ii m.hierarchy_tokens) ↔
        List.Sublist s2 m.hierarchy_tokens := by
    intro s2
    rw [List.mem_flatMap]
    constructor
    · rintro ⟨ii, -, hmem⟩
      exact (List.mem_sublistsLen.mp hmem).1
    · intro hsub
      exact ⟨s2.length, List.mem_range.mpr (Nat.lt_succ_of_le hsub.length_le),
        List.mem_sublistsLen.mpr ⟨hsub, rfl⟩⟩
  unfold modulepath_conditionals hierarchy_to_be_provided hierarchy_token_combinations
  rw [hc]
  simp only [Option.isSome_none, Bool.false_eq_true, if_false]
  simp only [List.mem_filter, hX, List.any_eq_true, decide_eq_true_eq]
  tauto

/-- Witness for `modulepath_conditionals_spec`: with an extra `lapack` token
missing, the full subset is emitted for the mpi provider. -/
theorem modulepath_conditionals_spec_witness :
    ["lapack", "mpi", "compiler"] ∈ modulepath_conditionals m_mpi3 ↔
      (List.Sublist ["lapack", "mpi", "compiler"] m_mpi3.hierarchy_tokens ∧
        "compiler" ∈ (["lapack", "mpi", "compiler"] : List String) ∧
        (∃ t ∈ (["lapack", "mpi", "compiler"] : List String),
          (List.lookup t m_mpi3.provides).isSome) ∧
        (∃ t ∈ (["lapack", "mpi", "compiler"] : List String), t ∈ missing_tokens m_mpi3)) :=
  modulepath_conditionals_spec m_mpi3 ["lapack", "mpi", "compiler"] (by decide)


/-- The conflict loop errors out at some offending item whenever the list
contains a placeholder item whose directories disagree with the naming
scheme; the abort record carries the spec, the naming scheme and an
offending conflict scheme. -/
theorem tcl_msc_error (spec_str ns : String) (fill : String → String)
    (conflicts : List String) (item : String)
    (hmem : item ∈ conflicts)
    (hph : has_placeholder ("conflict " ++ item ++ "\n") = true)
    (hmis : scheme_mismatch ns item = true) :
    ∃ e : ConflictAbort,
      tcl_module_specific_content spec_str ns fill conflicts = Except.error e ∧
      e.spec = spec_str ∧ e.nformat = ns ∧ e.cformat ∈ conflicts ∧
      has_placeholder ("conflict " ++ e.cformat ++ "\n") = true ∧
      scheme_mismatch ns e.cformat = true := by
  induction conflicts with
  | nil => cases hmem
  | cons c rest ih =>
    by_cases hph2 : has_placeholder ("conflict " ++ c ++ "\n") = true
    · by_cases hmis2 : scheme_mismatch ns c = true
      · refine ⟨⟨spec_str, ns, c⟩, ?_, rfl, rfl, List.mem_cons_self c rest, hph2, hmis2⟩
        simp only [tcl_module_specific_content]
        rw [if_pos hph2, if_pos hmis2]
      · have hit : item ∈ rest := by
          rcases List.mem_cons.mp hmem with h | h
          · exact absurd (h ▸ hmis) hmis2
          · exact h
        obtain ⟨e, he, h1, h2, h3, h4, h5⟩ := ih hit
        refine ⟨e, ?_, h1, h2, List.mem_cons_of_mem c h3, h4, h5⟩
        simp only [tcl_module_specific_content]
        rw [if_pos hph2, if_neg hmis2, he]
    · have hit : item ∈ rest := by
        rcases List.mem_cons.mp hmem with h | h
        · exact absurd (h ▸ hph) hph2
        · exact h
      obtain ⟨e, he, h1, h2, h3, h4, h5⟩ := ih hit
      refine ⟨e, ?_, h1, h2, List.mem_cons_of_mem c h3, h4, h5⟩
      simp only [tcl_module_specific_content]
      rw [if_neg hph2, he]

/-- C8: a configured conflict declaration containing placeholders whose
directory structure disagrees with the naming scheme at some compared
position makes the whole write abort with an error naming the spec, the
naming scheme and the conflict scheme, and the aborted write produces no
file. -/
theorem conflict_abort_spec (fmt : ModuleFormat) (pf : String → String)
    (sat : SpecInfo → String → Bool) (wl bl : List String)
    (header fn spec_str ns : String) (fill : String → String)
    (autoloads prerequisites : List SpecInfo) (env : List EnvCommand)
    (conflicts : List String) (item : String) (s : SpecInfo)
    (hpf : fmt.prerequisite_format = some pf)
    (hs : spec_blacklisted sat wl bl s = false)
    (hmem : item ∈ conflicts)
    (hph : has_placeholder ("conflict " ++ item ++ "\n") = true)
    (hmis : scheme_mismatch ns item = true) :
    ∃ e : ConflictAbort,
      write fmt sat wl bl header fn autoloads prerequisites env
          (tcl_module_specific_content spec_str ns fill conflicts) s
        = Except.error (WriteAbort.conflictAbort e) ∧
      e.spec = spec_str ∧ e.nformat = ns ∧ e.cformat ∈ conflicts ∧
      has_placeholder ("conflict " ++ e.cformat ++ "\n") = true ∧
      scheme_mismatch ns e.cformat = true := by
  obtain ⟨e, he, h1, h2, h3, h4, h5⟩ := tcl_msc_error spec_str ns fill conflicts item hmem hph hmis
  refine ⟨e, ?_, h1, h2, h3, h4, h5⟩
  unfold write
  rw [hs, hpf, prereq_lines_some, he]
  rfl

/-- Witness for `conflict_abort_spec` at a concrete misaligned
configuration. -/
theorem conflict_abort_spec_witness :
    ∃ e : ConflictAbort,
      write tcl_module sat_name [] [] "hdr" "fn" [] [] []
          (tcl_module_specific_content "pkg@1.0" "\x7bname\x7d/\x7bversion\x7d" id
            ["\x7bname\x7d/\x7bcompiler.name\x7d"]) pkg_spec
        = Except.error (WriteAbort.conflictAbort e) ∧
      e.spec = "pkg@1.0" ∧ e.nformat = "\x7bname\x7d/\x7bversion\x7d" ∧
      e.cformat ∈ ["\x7bname\x7d/\x7bcompiler.name\x7d"] ∧
      has_placeholder ("conflict " ++ e.cformat ++ "\n") = true ∧
      scheme_mismatch "\x7bname\x7d/\x7bversion\x7d" e.cformat = true :=
  conflict_abort_spec tcl_module (fun m => "prereq " ++ m ++ "\n") sat_name [] [] "hdr" "fn"
    "pkg@1.0" "\x7bname\x7d/\x7bversion\x7d" id [] [] []
    ["\x7bname\x7d/\x7bcompiler.name\x7d"] "\x7bname\x7d/\x7bcompiler.name\x7d" pkg_spec
    rfl (by decide) (by decide) (by decide) (by decide)


/-- Looking up the key just set. -/
theorem lookup_setKey_self (k : String) (v : CVal) (t : List (String × CVal)) :
    List.lookup k (setKey k v t) = some v := by
  induction t with
  | nil => simp [setKey, List.lookup]
  | cons p rest ih =>
    obtain ⟨k2, v2⟩ := p
    by_cases h : k2 = k
    · subst h
      simp [setKey, List.lookup]
    · have hb : (k2 == k) = false := beq_eq_false_iff_ne.mpr h
      have hb2 : (k == k2) = false := beq_eq_false_iff_ne.mpr (Ne.symm h)
      simp [setKey, hb, List.lookup, hb2, ih]

/-- Setting one key leaves the others unchanged. -/
theorem lookup_setKey_ne (k k2 : String) (v : CVal) (t : List (String × CVal))
    (h : k ≠ k2) : List.lookup k (setKey k2 v t) = List.lookup k t := by
  induction t with
  | nil =>
    have hb : (k == k2) = false := beq_eq_false_iff_ne.mpr h
    simp [setKey, List.lookup, hb]
  | cons p rest ih =>
    obtain ⟨k3, v3⟩ := p
    by_cases h3 : k3 = k2
    · subst h3
      have hb : (k == k3) = false := beq_eq_false_iff_ne.mpr h
      simp [setKey, List.lookup, hb]
    · have hb3 : (k3 == k2) = false := beq_eq_false_iff_ne.mpr h3
      simp only [setKey, hb3, if_false]
      cases hk3 : (k == k3) <;> simp [List.lookup, hk3, ih]

/-- A successful `update_one_key` only replaces (or inserts) the processed
key. -/
theorem update_one_key_shape (t : List (String × CVal)) (k : String) (uv : CVal)
    (t2 : List (String × CVal)) (h : update_one_key t k uv = some t2) :
    ∃ w, t2 = setKey k w t := by
  cases uv with
  | vdict u =>
    unfold update_one_key at h
    cases hl : List.lookup k t with
    | none =>
      rw [hl] at h
      exact ⟨CVal.vdict u, by injection h with h2; exact h2.symm⟩
    | some w =>
      cases w with
      | vstr s2 =>
        rw [hl] at h
        exact ⟨CVal.vdict u, by injection h with h2; exact h2.symm⟩
      | vlist xs =>
        rw [hl] at h
        exact ⟨CVal.vlist (xs ++ pyIter (CVal.vdict u)), by injection h with h2; exact h2.symm⟩
      | vdict d =>
        have h3 : Option.map (fun d2 => setKey k (CVal.vdict d2) t)
            (update_dictionary_extending_lists d u) = some t2 := by
          rw [hl] at h
          exact h
        cases hd : update_dictionary_extending_lists d u with
        | none => rw [hd] at h3; cases h3
        | some d2 =>
          rw [hd] at h3
          exact ⟨CVal.vdict d2, by injection h3 with h2; exact h2.symm⟩
  | vstr s2 =>
    unfold update_one_key at h
    cases hl : List.lookup k t with
    | none =>
      rw [hl] at h
      exact ⟨CVal.vstr s2, by injection h with h2; exact h2.symm⟩
    | some w =>
      cases w with
      | vstr s3 =>
        rw [hl] at h
        exact ⟨CVal.vstr s2, by injection h with h2; exact h2.symm⟩
      | vlist xs =>
        rw [hl] at h
        exact ⟨CVal.vlist (xs ++ pyIter (CVal.vstr s2)), by injection h with h2; exact h2.symm⟩
      | vdict d => rw [hl] at h; cases h
  | vlist l =>
    unfold update_one_key at h
    cases hl : List.lookup k t with
    | none =>
      rw [hl] at h
      exact ⟨CVal.vlist l, by injection h with h2; exact h2.symm⟩
    | some w =>
      cases w with
      | vstr s3 =>
        rw [hl] at h
        exact ⟨CVal.vlist l, by injection h with h2; exact h2.symm⟩
      | vlist xs =>
        rw [hl] at h
        exact ⟨CVal.vlist (xs ++ pyIter (CVal.vlist l)), by injection h with h2; exact h2.symm⟩
      | vdict d => rw [hl] at h; cases h

/-- Keys absent from the update are untouched by the merge. -/
theorem lookup_update_not_mem (u : List (String × CVal)) :
    ∀ (t r : List (String × CVal)) (k : String),
      update_dictionary_extending_lists t u = some r →
      ¬ k ∈ u.map Prod.fst → List.lookup k r = List.lookup k t := by
  induction u with
  | nil =>
    intro t r k h _
    injection h with h2
    rw [← h2]
  | cons p rest ih =>
    obtain ⟨k2, uv⟩ := p
    intro t r k h hk
    have hne : k ≠ k2 := fun he => hk (by simp [he])
    have hk2 : ¬ k ∈ rest.map Prod.fst := fun hm => hk (by simp [hm])
    simp only [update_dictionary_extending_lists] at h
    cases h2 : update_one_key t k2 uv with
    | none => rw [h2] at h; cases h
    | some t2 =>
      rw [h2] at h
      obtain ⟨w, rfl⟩ := update_one_key_shape t k2 uv t2 h2
      rw [ih (setKey k2 w t) r k h hk2, lookup_setKey_ne k k2 w t hne]


/-- Merging concatenates a list-valued key present in both dictionaries. -/
theorem lookup_update_list (u : List (String × CVal)) :
    ∀ (t r : List (String × CVal)) (k : String) (xs ys : List CVal),
      (u.map Prod.fst).Nodup →
      update_dictionary_extending_lists t u = some r →
      List.lookup k t = some (CVal.vlist xs) →
      List.lookup k u = some (CVal.vlist ys) →
      List.lookup k r = some (CVal.vlist (xs ++ ys)) := by
  induction u with
  | nil => intro t r k xs ys _ _ _ hu; cases hu
  | cons p rest ih =>
    obtain ⟨k2, uv⟩ := p
    intro t r k xs ys hnd h ht hu
    simp only [List.map_cons, List.nodup_cons] at hnd
    simp only [update_dictionary_extending_lists] at h
    by_cases hk : k = k2
    · subst hk
      have huv : uv = CVal.vlist ys := by
        simpa [List.lookup] using hu
      subst huv
      have h1 : update_one_key t k (CVal.vlist ys)
          = some (setKey k (CVal.vlist (xs ++ ys)) t) := by
        unfold update_one_key
        rw [ht]
        rfl
      rw [h1] at h
      rw [lookup_update_not_mem rest _ r k h hnd.1, lookup_setKey_self]
    · have hb : (k == k2) = false := beq_eq_false_iff_ne.mpr hk
      have hu2 : List.lookup k rest = some (CVal.vlist ys) := by
        simpa [List.lookup, hb] using hu
      cases h2 : update_one_key t k2 uv with
      | none => rw [h2] at h; cases h
      | some t2 =>
        rw [h2] at h
        obtain ⟨w, rfl⟩ := update_one_key_shape t k2 uv t2 h2
        have ht2 : List.lookup k (setKey k2 w t) = some (CVal.vlist xs) := by
          rw [lookup_setKey_ne k k2 w t hk]
          exact ht
        exact ih (setKey k2 w t) r k xs ys hnd.2 h ht2 hu2

/-- Merging overwrites a scalar-valued target key with the update value. -/
theorem lookup_update_scalar (u : List (String × CVal)) :
    ∀ (t r : List (String × CVal)) (k : String) (sv : String) (w : CVal),
      (u.map Prod.fst).Nodup →
      update_dictionary_extending_lists t u = some r →
      List.lookup k t = some (CVal.vstr sv) →
      List.lookup k u = some w →
      List.lookup k r = some w := by
  induction u with
  | nil => intro t r k sv w _ _ _ hu; cases hu
  | cons p rest ih =>
    obtain ⟨k2, uv⟩ := p
    intro t r k sv w hnd h ht hu
    simp only [List.map_cons, List.nodup_cons] at hnd
    simp only [update_dictionary_extending_lists] at h
    by_cases hk : k = k2
    · subst hk
      have huv : uv = w := by
        simpa [List.lookup] using hu
      subst huv
      have h1 : update_one_key t k uv = some (setKey k uv t) := by
        cases uv <;> (unfold update_one_key; rw [ht]; try rfl)
      rw [h1] at h
      rw [lookup_update_not_mem rest _ r k h hnd.1, lookup_setKey_self]
    · have hb : (k == k2) = false := beq_eq_false_iff_ne.mpr hk
      have hu2 : List.lookup k rest = some w := by
        simpa [List.lookup, hb] using hu
      cases h2 : update_one_key t k2 uv with
      | none => rw [h2] at h; cases h
      | some t2 =>
        rw [h2] at h
        obtain ⟨v2, rfl⟩ := update_one_key_shape t k2 uv t2 h2
        have ht2 : List.lookup k (setKey k2 v2 t) = some (CVal.vstr sv) := by
          rw [lookup_setKey_ne k k2 v2 t hk]
          exact ht
        exact ih (setKey k2 v2 t) r k sv w hnd.2 h ht2 hu2

/-- Merging recurses into a key that is a nested mapping on both sides. -/
theorem lookup_update_dict (u : List (String × CVal)) :
    ∀ (t r : List (String × CVal)) (k : String) (d du : List (String × CVal)),
      (u.map Prod.fst).Nodup →
      update_dictionary_extending_lists t u = some r →
      List.lookup k t = some (CVal.vdict d) →
      List.lookup k u = some (CVal.vdict du) →
      ∃ d2, update_dictionary_extending_lists d du = some d2 ∧
        List.lookup k r = some (CVal.vdict d2) := by
  induction u with
  | nil => intro t r k d du _ _ _ hu; cases hu
  | cons p rest ih =>
    obtain ⟨k2, uv⟩ := p
    intro t r k d du hnd h ht hu
    simp only [List.map_cons, List.nodup_cons] at hnd
    simp only [update_dictionary_extending_lists] at h
    by_cases hk : k = k2
    · subst hk
      have huv : uv = CVal.vdict du := by
        simpa [List.lookup] using hu
      subst huv
      have hEq : update_one_key t k (CVal.vdict du)
          = Option.map (fun d2 => setKey k (CVal.vdict d2) t)
              (update_dictionary_extending_lists d du) := by
        unfold update_one_key
        rw [ht]
      cases hd : update_dictionary_extending_lists d du with
      | none =>
        have h1 : update_one_key t k (CVal.vdict du) = none := by
          rw [hEq, hd]
          rfl
        rw [h1] at h
        cases h
      | some d2 =>
        have h1 : update_one_key t k (CVal.vdict du)
            = some (setKey k (CVal.vdict d2) t) := by
          rw [hEq, hd]
          rfl
        rw [h1] at h
        refine ⟨d2, rfl, ?_⟩
        rw [lookup_update_not_mem rest _ r k h hnd.1, lookup_setKey_self]
    · have hb : (k == k2) = false := beq_eq_false_iff_ne.mpr hk
      have hu2 : List.lookup k rest = some (CVal.vdict du) := by
        simpa [List.lookup, hb] using hu
      cases h2 : update_one_key t k2 uv with
      | none => rw [h2] at h; cases h
      | some t2 =>
        rw [h2] at h
        obtain ⟨v2, rfl⟩ := update_one_key_shape t k2 uv t2 h2
        have ht2 : List.lookup k (setKey k2 v2 t) = some (CVal.vdict d) := by
          rw [lookup_setKey_ne k k2 v2 t hk]
          exact ht
        exact ih (setKey k2 v2 t) r k d du hnd.2 h ht2 hu2

/-- A matching override rule makes the merged result independent of
everything accumulated before it. -/
theorem parse_config_rules_override (sat : String → Bool)
    (pre : List (String × List (String × CVal))) (p : String)
    (conf : List (String × CVal)) (post : List (String × List (String × CVal)))
    (hov : ends_with_colon p = true) (hsat : sat (strip_colon p) = true) :
    ∀ (acc r : List (String × CVal)),
      parse_config_rules sat (pre ++ (p, conf) :: post) acc = some r →
      parse_config_rules sat ((p, conf) :: post) [] = some r := by
  induction pre with
  | nil =>
    intro acc r h
    simp only [List.nil_append, parse_config_rules, hsat, hov, if_true] at h ⊢
    exact h
  | cons q pre ih =>
    obtain ⟨qp, qc⟩ := q
    intro acc r h
    simp only [List.cons_append, parse_config_rules] at h
    by_cases hq : sat (strip_colon qp) = true
    · rw [if_pos hq] at h
      cases h2 : update_dictionary_extending_lists
          (if ends_with_colon qp then [] else acc) qc with
      | none => rw [h2] at h; cases h
      | some acc2 => rw [h2] at h; exact ih acc2 r h
    · rw [if_neg hq] at h
      exact ih acc r h


/-- C4: configuration rule merging concatenates list-valued keys in rule
order (so merging a rule-set with itself duplicates every list entry),
overwrites scalar keys with the later rule, merges nested mappings
recursively, and a matching pattern ending in the override marker `:`
discards all previously merged rules before its own rules apply. -/
theorem update_rules_spec :
    (∀ (t u r : List (String × CVal)) (k : String) (xs ys : List CVal),
      (u.map Prod.fst).Nodup →
      update_dictionary_extending_lists t u = some r →
      List.lookup k t = some (CVal.vlist xs) →
      List.lookup k u = some (CVal.vlist ys) →
      List.lookup k r = some (CVal.vlist (xs ++ ys))) ∧
    (∀ (t r : List (String × CVal)) (k : String) (xs : List CVal),
      (t.map Prod.fst).Nodup →
      update_dictionary_extending_lists t t = some r →
      List.lookup k t = some (CVal.vlist xs) →
      List.lookup k r = some (CVal.vlist (xs ++ xs))) ∧
    (∀ (t u r : List (String × CVal)) (k : String) (sv : String) (w : CVal),
      (u.map Prod.fst).Nodup →
      update_dictionary_extending_lists t u = some r →
      List.lookup k t = some (CVal.vstr sv) →
      List.lookup k u = some w →
      List.lookup k r = some w) ∧
    (∀ (t u r : List (String × CVal)) (k : String) (d du : List (String × CVal)),
      (u.map Prod.fst).Nodup →
      update_dictionary_extending_lists t u = some r →
      List.lookup k t = some (CVal.vdict d) →
      List.lookup k u = some (CVal.vdict du) →
      ∃ d2, update_dictionary_extending_lists d du = some d2 ∧
        List.lookup k r = some (CVal.vdict d2)) ∧
    (∀ (sat : String → Bool) (pre post : List (String × List (String × CVal)))
        (p : String) (conf : List (String × CVal)) (acc r : List (String × CVal)),
      ends_with_colon p = true → sat (strip_colon p) = true →
      parse_config_rules sat (pre ++ (p, conf) :: post) acc = some r →
      parse_config_rules sat ((p, conf) :: post) [] = some r) := by
  refine ⟨fun t u r k xs ys hnd h ht hu => lookup_update_list u t r k xs ys hnd h ht hu,
    fun t r k xs hnd h ht => lookup_update_list t t r k xs xs hnd h ht ht,
    fun t u r k sv w hnd h ht hu => lookup_update_scalar u t r k sv w hnd h ht hu,
    fun t u r k d du hnd h ht hu => lookup_update_dict u t r k d du hnd h ht hu,
    fun sat pre post p conf acc r hov hsat h =>
      parse_config_rules_override sat pre p conf post hov hsat acc r h⟩

/-- Witness for `update_rules_spec` on a concrete pair of rule-sets. -/
theorem update_rules_spec_witness :
    (List.lookup "suffixes"
        [("suffixes", CVal.vlist [CVal.vstr "a", CVal.vstr "b"]), ("mode", CVal.vstr "lua"),
         ("env", CVal.vdict [("PATH", CVal.vlist [CVal.vstr "p1", CVal.vstr "p2"])])]
      = some (CVal.vlist ([CVal.vstr "a"] ++ [CVal.vstr "b"]))) ∧
    (List.lookup "suffixes"
        [("suffixes", CVal.vlist [CVal.vstr "a", CVal.vstr "a"]), ("mode", CVal.vstr "tcl"),
         ("env", CVal.vdict [("PATH", CVal.vlist [CVal.vstr "p1", CVal.vstr "p1"])])]
      = some (CVal.vlist ([CVal.vstr "a"] ++ [CVal.vstr "a"]))) ∧
    (List.lookup "mode"
        [("suffixes", CVal.vlist [CVal.vstr "a", CVal.vstr "b"]), ("mode", CVal.vstr "lua"),
         ("env", CVal.vdict [("PATH", CVal.vlist [CVal.vstr "p1", CVal.vstr "p2"])])]
      = some (CVal.vstr "lua")) ∧
    (∃ d2, update_dictionary_extending_lists [("PATH", CVal.vlist [CVal.vstr "p1"])]
        [("PATH", CVal.vlist [CVal.vstr "p2"])] = some d2 ∧
      List.lookup "env"
          [("suffixes", CVal.vlist [CVal.vstr "a", CVal.vstr "b"]), ("mode", CVal.vstr "lua"),
           ("env", CVal.vdict [("PATH", CVal.vlist [CVal.vstr "p1", CVal.vstr "p2"])])]
        = some (CVal.vdict d2)) ∧
    parse_config_rules (fun _ => true) [("b:", conf_update)] [] = some conf_update :=
  ⟨update_rules_spec.1 conf_target conf_update _ "suffixes" [CVal.vstr "a"] [CVal.vstr "b"]
      (by decide) rfl rfl rfl,
   update_rules_spec.2.1 conf_target _ "suffixes" [CVal.vstr "a"] (by decide) rfl rfl,
   update_rules_spec.2.2.1 conf_target conf_update _ "mode" "tcl" (CVal.vstr "lua")
      (by decide) rfl rfl rfl,
   update_rules_spec.2.2.2.1 conf_target conf_update _ "env"
      [("PATH", CVal.vlist [CVal.vstr "p1"])] [("PATH", CVal.vlist [CVal.vstr "p2"])]
      (by decide) rfl rfl rfl,
   update_rules_spec.2.2.2.2 (fun _ => true) [("arule", conf_target)] []
      "b:" conf_update [] conf_update (by decide) rfl rfl⟩


/-- A tree is among its own subtrees. -/
theorem mem_subtrees_self (t : DepTree) : t ∈ subtrees t := by
  cases t
  simp [subtrees]

/-- A member of a list of trees contributes its subtrees to the list's
subtrees. -/
theorem subtrees_subset_subtrees_list : ∀ (ts : List DepTree), ∀ c ∈ ts,
    ∀ u ∈ subtrees c, u ∈ subtrees_list ts := by
  intro ts
  induction ts with
  | nil => intro c hc; cases hc
  | cons t ts ih =>
    intro c hc u hu
    simp only [subtrees_list, List.mem_append]
    rcases List.mem_cons.mp hc with h | h
    · exact Or.inl (h ▸ hu)
    · exact Or.inr (ih c h u hu)

/-- A direct child is among a node's subtrees. -/
theorem mem_subtrees_of_child (x : String) (deps : List DepTree) :
    ∀ c ∈ deps, c ∈ subtrees (DepTree.node x deps) := by
  intro c hc
  simp only [subtrees]
  exact List.mem_cons_of_mem _
    (subtrees_subset_subtrees_list deps c hc c (mem_subtrees_self c))

mutual

/-- Subtree membership is transitive. -/
theorem subtrees_trans : ∀ (t : DepTree), ∀ s ∈ subtrees t, ∀ u ∈ subtrees s, u ∈ subtrees t
  | .node x deps => by
    intro s hs u hu
    simp only [subtrees] at hs
    rcases List.mem_cons.mp hs with h1 | h1
    · exact h1 ▸ hu
    · simp only [subtrees]
      exact List.mem_cons_of_mem _ (subtrees_list_trans deps s h1 u hu)

/-- Subtree membership through a list of trees is transitive. -/
theorem subtrees_list_trans : ∀ (ts : List DepTree), ∀ s ∈ subtrees_list ts,
    ∀ u ∈ subtrees s, u ∈ subtrees_list ts
  | [] => by intro s hs; cases hs
  | t :: ts => by
    intro s hs u hu
    simp only [subtrees_list, List.mem_append] at hs ⊢
    rcases hs with h1 | h1
    · exact Or.inl (subtrees_trans t s h1 u hu)
    · exact Or.inr (subtrees_list_trans ts s h1 u hu)

end

mutual

/-- Acyclicity holds for every subtree. -/
theorem self_ok_sub : ∀ (t : DepTree), self_ok t = true → ∀ s ∈ subtrees t, self_ok s = true
  | .node x deps => by
    intro h s hs
    simp only [subtrees] at hs
    rcases List.mem_cons.mp hs with h1 | h1
    · exact h1 ▸ h
    · simp only [self_ok, Bool.and_eq_true] at h
      exact self_ok_list_sub deps h.2 s h1

/-- Acyclicity holds for every subtree of every listed tree. -/
theorem self_ok_list_sub : ∀ (ts : List DepTree), self_ok_list ts = true →
    ∀ s ∈ subtrees_list ts, self_ok s = true
  | [] => by intro _ s hs; cases hs
  | t :: ts => by
    intro h s hs
    simp only [self_ok_list, Bool.and_eq_true] at h
    simp only [subtrees_list, List.mem_append] at hs
    rcases hs with h1 | h1
    · exact self_ok_sub t h.1 s h1
    · exact self_ok_list_sub ts h.2 s h1

end

/-- An acyclic node never lists its own name among its descendants. -/
theorem self_ok_root (t : DepTree) (x : String) (deps : List DepTree)
    (hok : self_ok t = true) (hs : DepTree.node x deps ∈ subtrees t) :
    ¬ x ∈ tree_ids_list deps := by
  have h1 := self_ok_sub t hok (DepTree.node x deps) hs
  simp only [self_ok, Bool.and_eq_true] at h1
  intro hmem
  have h2 := h1.1
  rw [decide_eq_true hmem] at h2
  cases h2

/-- Coherence: equally named occurrences are equal trees. -/
theorem coherent_eq (T : DepTree) (hco : coherent_b T = true) :
    ∀ a ∈ subtrees T, ∀ b ∈ subtrees T, root_name a = root_name b → a = b := by
  intro a ha b hb hr
  unfold coherent_b at hco
  rw [List.all_eq_true] at hco
  have h1 := hco a ha
  rw [List.all_eq_true] at h1
  have h2 := h1 b hb
  rw [Bool.or_eq_true] at h2
  rcases h2 with h2 | h2
  · have h3 : (root_name a == root_name b) = false := by
      cases hb2 : (root_name a == root_name b) with
      | false => rfl
      | true => rw [hb2] at h2; cases h2
    rw [beq_eq_false_iff_ne] at h3
    exact absurd hr h3
  · exact of_decide_eq_true h2


/-- Lexicographic character-list comparison is irreflexive. -/
theorem chars_lt_irrefl : ∀ a : List Char, chars_lt a a = false := by
  intro a
  induction a with
  | nil => rfl
  | cons x xs ih => simp [chars_lt, ih]

/-- Lexicographic character-list comparison is transitive. -/
theorem chars_lt_trans : ∀ a b c : List Char,
    chars_lt a b = true → chars_lt b c = true → chars_lt a c = true := by
  intro a
  induction a with
  | nil =>
    intro b c h1 h2
    cases b with
    | nil => cases h1
    | cons y ys =>
      cases c with
      | nil => cases h2
      | cons z zs => rfl
  | cons x xs ih =>
    intro b c h1 h2
    cases b with
    | nil => cases h1
    | cons y ys =>
      cases c with
      | nil => cases h2
      | cons z zs =>
        simp only [chars_lt, Bool.or_eq_true, Bool.and_eq_true, decide_eq_true_eq,
          beq_iff_eq] at h1 h2 ⊢
        rcases h1 with h1 | ⟨he1, hr1⟩
        · rcases h2 with h2 | ⟨he2, hr2⟩
          · exact Or.inl (lt_trans h1 h2)
          · exact Or.inl (he2 ▸ h1)
        · rcases h2 with h2 | ⟨he2, hr2⟩
          · exact Or.inl (he1 ▸ h2)
          · exact Or.inr ⟨he1.trans he2, ih ys zs hr1 hr2⟩

/-- Two character lists neither of which is below the other are equal. -/
theorem chars_lt_connex : ∀ a b : List Char,
    chars_lt a b = false → chars_lt b a = false → a = b := by
  intro a
  induction a with
  | nil =>
    intro b h1 _
    cases b with
    | nil => rfl
    | cons y ys => cases h1
  | cons x xs ih =>
    intro b h1 h2
    cases b with
    | nil => cases h2
    | cons y ys =>
      simp only [chars_lt, Bool.or_eq_false_iff, Bool.and_eq_false_iff,
        decide_eq_false_iff_not, beq_iff_eq, beq_eq_false_iff_ne] at h1 h2
      have hxy : x = y := by
        rcases h1 with ⟨hl1, -⟩
        rcases h2 with ⟨hl2, -⟩
        exact le_antisymm (not_lt.mp hl2) (not_lt.mp hl1)
      subst hxy
      rcases h1 with ⟨-, h1b⟩
      rcases h2 with ⟨-, h2b⟩
      rcases h1b with h1b | h1b
      · exact absurd rfl h1b
      · rcases h2b with h2b | h2b
        · exact absurd rfl h2b
        · rw [ih ys h1b h2b]

/-- The flipped tuple comparison is total. -/
theorem descending_le_total : ∀ a b : Nat × String,
    (descending_le a b || descending_le b a) = true := by
  intro a b
  by_cases h1 : b.1 < a.1
  · simp [descending_le, pair_le, h1]
  · by_cases h2 : a.1 < b.1
    · simp [descending_le, pair_le, h2]
    · have he : a.1 = b.1 := by omega
      by_cases h3 : chars_lt a.2.data b.2.data = true
      · have h4 : chars_lt b.2.data a.2.data = false := by
          cases hc : chars_lt b.2.data a.2.data with
          | false => rfl
          | true =>
            have h5 := chars_lt_trans _ _ _ h3 hc
            rw [chars_lt_irrefl] at h5
            cases h5
        simp [descending_le, pair_le, he, h4]
      · have h3f : chars_lt a.2.data b.2.data = false := by
          cases hc : chars_lt a.2.data b.2.data with
          | false => rfl
          | true => exact absurd hc h3
        simp [descending_le, pair_le, he, h3f]

/-- The flipped tuple comparison is transitive. -/
theorem descending_le_trans : ∀ a b c : Nat × String,
    descending_le a b = true → descending_le b c = true → descending_le a c = true := by
  intro a b c h1 h2
  simp only [descending_le, pair_le, Bool.or_eq_true, Bool.and_eq_true, decide_eq_true_eq,
    Bool.not_eq_true'] at h1 h2 ⊢
  rcases h1 with h1 | ⟨he1, hs1⟩
  · rcases h2 with h2 | ⟨he2, hs2⟩
    · exact Or.inl (by omega)
    · exact Or.inl (by omega)
  · rcases h2 with h2 | ⟨he2, hs2⟩
    · exact Or.inl (by omega)
    · refine Or.inr ⟨by omega, ?_⟩
      cases hac : chars_lt a.2.data c.2.data with
      | false => rfl
      | true =>
        cases hba : chars_lt b.2.data a.2.data with
        | false =>
          have heq := chars_lt_connex a.2.data b.2.data hs1 hba
          rw [heq] at hac
          rw [hac] at hs2
          cases hs2
        | true =>
          have h5 := chars_lt_trans _ _ _ hba hac
          rw [h5] at hs2
          cases hs2

/-- A flipped-comparison fact forces descending depths. -/
theorem descending_le_depth (a b : Nat × String) (h : descending_le a b = true) :
    b.1 ≤ a.1 := by
  simp only [descending_le, pair_le, Bool.or_eq_true, Bool.and_eq_true,
    decide_eq_true_eq] at h
  rcases h with h | ⟨h, -⟩ <;> omega

/-- On a list with duplicate-free names the seen-set de-duplication is the
identity projection. -/
theorem dedup_seen_eq_map : ∀ (l : List (Nat × String)) (seen : List String),
    (∀ z ∈ l.map Prod.snd, ¬ z ∈ seen) → (l.map Prod.snd).Nodup →
    dedup_seen seen l = l.map Prod.snd := by
  intro l
  induction l with
  | nil => intro seen _ _; rfl
  | cons p rest ih =>
    intro seen hdis hnd
    simp only [List.map_cons, List.nodup_cons] at hnd
    have hp : ¬ p.2 ∈ seen := hdis p.2 (by simp)
    simp only [dedup_seen, if_neg hp, List.map_cons]
    rw [ih (p.2 :: seen) ?_ hnd.2]
    intro z hz hzin
    rcases List.mem_cons.mp hzin with h | h
    · exact hnd.1 (h ▸ hz)
    · exact hdis z (by simp [hz]) h


mutual

/-- The traversal invariant for one subtree of an acyclic, coherent graph
unfolding: the visited names are duplicate-free, they are exactly the
subtree's names not yet covered, the covered set grows by exactly the
subtree's names, and the covering invariant is preserved. -/
theorem trav_inv (T : DepTree) (hok : self_ok T = true) (hco : coherent_b T = true) :
    ∀ (t : DepTree), ∀ (seen gray : List String) (d : Nat),
      t ∈ subtrees T → covered_closed T seen gray → (∀ y ∈ gray, ¬ y ∈ tree_ids t) →
      (((traverse_post seen d t).1.map Prod.snd).Nodup ∧
        (∀ z, z ∈ (traverse_post seen d t).1.map Prod.snd ↔
          (z ∈ tree_ids t ∧ ¬ z ∈ seen)) ∧
        (∀ z, z ∈ (traverse_post seen d t).2 ↔ (z ∈ seen ∨ z ∈ tree_ids t)) ∧
        covered_closed T (traverse_post seen d t).2 gray)
  | .node x deps => by
    intro seen gray d hsub hcl hgf
    by_cases hx : x ∈ seen
    · have hxg : ¬ x ∈ gray := fun hg => hgf x hg (by simp [tree_ids])
      have hclosed : ∀ z ∈ tree_ids_list deps, z ∈ seen := hcl x deps hsub hx hxg
      simp only [traverse_post, if_pos hx]
      refine ⟨by simp, ?_, ?_, hcl⟩
      · intro z
        simp only [List.map_nil, List.not_mem_nil, false_iff]
        rintro ⟨hz1, hz2⟩
        rcases List.mem_cons.mp (by simpa [tree_ids] using hz1) with h | h
        · exact hz2 (h ▸ hx)
        · exact hz2 (hclosed z h)
      · intro z
        simp only [tree_ids, List.mem_cons]
        constructor
        · exact fun h => Or.inl h
        · rintro (h | h | h)
          · exact h
          · exact h ▸ hx
          · exact hclosed z h
    · have hxids : ¬ x ∈ tree_ids_list deps := self_ok_root T x deps hok hsub
      have hdepssub : ∀ c ∈ deps, c ∈ subtrees T := fun c hc =>
        subtrees_trans T (DepTree.node x deps) hsub c (mem_subtrees_of_child x deps c hc)
      have hcl1 : covered_closed T (x :: seen) (x :: gray) := by
        intro y ds hyds hy hyg
        have hyx : y ≠ x := fun he => hyg (by simp [he])
        have hy2 : y ∈ seen := by
          rcases List.mem_cons.mp hy with h | h
          · exact absurd h hyx
          · exact h
        have hyg2 : ¬ y ∈ gray := fun hg => hyg (List.mem_cons_of_mem _ hg)
        exact fun z hz => List.mem_cons_of_mem _ (hcl y ds hyds hy2 hyg2 z hz)
      have hgf1 : ∀ y ∈ (x :: gray), ¬ y ∈ tree_ids_list deps := by
        intro y hy
        rcases List.mem_cons.mp hy with h | h
        · exact h ▸ hxids
        · exact fun hmem => hgf y h (by simp [tree_ids, hmem])
      obtain ⟨ihnd, ihmem, ihseen, ihcl⟩ :=
        trav_inv_list T hok hco deps (x :: seen) (x :: gray) (d + 1) hdepssub hcl1 hgf1
      simp only [traverse_post, if_neg hx]
      refine ⟨?_, ?_, ?_, ?_⟩
      · rw [List.map_append]
        refine List.Nodup.append ihnd (by simp) ?_
        intro a ha hab
        have h1 := (ihmem a).mp ha
        have hax : a = x := by simpa using hab
        exact h1.2 (by simp [hax])
      · intro z
        rw [List.map_append]
        simp only [List.mem_append]
        constructor
        · rintro (h | h)
          · obtain ⟨h1, h2⟩ := (ihmem z).mp h
            exact ⟨by simp [tree_ids, h1], fun hz => h2 (List.mem_cons_of_mem _ hz)⟩
          · have hz : z = x := by simpa using h
            exact ⟨by simp [tree_ids, hz], hz ▸ hx⟩
        · rintro ⟨h1, h2⟩
          rcases List.mem_cons.mp (by simpa [tree_ids] using h1) with h | h
          · exact Or.inr (by simp [h])
          · refine Or.inl ((ihmem z).mpr ⟨h, ?_⟩)
            intro hz
            rcases List.mem_cons.mp hz with h3 | h3
            · exact hxids (h3 ▸ h)
            · exact h2 h3
      · intro z
        rw [ihseen z]
        simp only [tree_ids, List.mem_cons]
        tauto
      · intro y ds hyds hy hyg
        by_cases hyx : y = x
        · subst hyx
          have heq : DepTree.node y ds = DepTree.node y deps :=
            coherent_eq T hco _ hyds _ hsub rfl
          injection heq with h1 h2
          subst h2
          exact fun z hz => (ihseen z).mpr (Or.inr hz)
        · have hyg1 : ¬ y ∈ (x :: gray) := by
            intro hg
            rcases List.mem_cons.mp hg with h | h
            · exact hyx h
            · exact hyg h
          exact ihcl y ds hyds hy hyg1

/-- The traversal invariant over a list of sibling subtrees. -/
theorem trav_inv_list (T : DepTree) (hok : self_ok T = true) (hco : coherent_b T = true) :
    ∀ (ts : List DepTree), ∀ (seen gray : List String) (d : Nat),
      (∀ c ∈ ts, c ∈ subtrees T) → covered_closed T seen gray →
      (∀ y ∈ gray, ¬ y ∈ tree_ids_list ts) →
      (((traverse_post_list seen d ts).1.map Prod.snd).Nodup ∧
        (∀ z, z ∈ (traverse_post_list seen d ts).1.map Prod.snd ↔
          (z ∈ tree_ids_list ts ∧ ¬ z ∈ seen)) ∧
        (∀ z, z ∈ (traverse_post_list seen d ts).2 ↔ (z ∈ seen ∨ z ∈ tree_ids_list ts)) ∧
        covered_closed T (traverse_post_list seen d ts).2 gray)
  | [] => by
    intro seen gray d _ hcl _
    simp only [traverse_post_list]
    exact ⟨by simp, by simp [tree_ids_list], by simp [tree_ids_list], hcl⟩
  | t :: ts => by
    intro seen gray d hsubs hcl hgf
    have hgf_t : ∀ y ∈ gray, ¬ y ∈ tree_ids t := by
      intro y hy hmem
      exact hgf y hy (by simp [tree_ids_list, hmem])
    obtain ⟨nd1, mem1, seen1, cl1⟩ :=
      trav_inv T hok hco t seen gray d (hsubs t (by simp)) hcl hgf_t
    have hgf_ts : ∀ y ∈ gray, ¬ y ∈ tree_ids_list ts := by
      intro y hy hmem
      exact hgf y hy (by simp [tree_ids_list, hmem])
    obtain ⟨nd2, mem2, seen2, cl2⟩ :=
      trav_inv_list T hok hco ts (traverse_post seen d t).2 gray d
        (fun c hc => hsubs c (List.mem_cons_of_mem _ hc)) cl1 hgf_ts
    simp only [traverse_post_list]
    refine ⟨?_, ?_, ?_, cl2⟩
    · rw [List.map_append]
      refine List.Nodup.append nd1 nd2 ?_
      intro a ha hb
      have h1 := (mem1 a).mp ha
      have h2 := (mem2 a).mp hb
      exact h2.2 ((seen1 a).mpr (Or.inr h1.1))
    · intro z
      rw [List.map_append]
      simp only [List.mem_append]
      constructor
      · rintro (h | h)
        · obtain ⟨h1, h2⟩ := (mem1 z).mp h
          exact ⟨by simp [tree_ids_list, h1], h2⟩
        · obtain ⟨h1, h2⟩ := (mem2 z).mp h
          exact ⟨by simp [tree_ids_list, h1], fun hz => h2 ((seen1 z).mpr (Or.inl hz))⟩
      · rintro ⟨h1, h2⟩
        rcases List.mem_append.mp (by simpa [tree_ids_list] using h1) with h | h
        · exact Or.inl ((mem1 z).mpr ⟨h, h2⟩)
        · by_cases hzt : z ∈ tree_ids t
          · exact Or.inl ((mem1 z).mpr ⟨hzt, h2⟩)
          · refine Or.inr ((mem2 z).mpr ⟨h, ?_⟩)
            intro hz
            rcases (seen1 z).mp hz with h3 | h3
            · exact h2 h3
            · exact hzt h3
    · intro z
      rw [seen2 z, seen1 z]
      simp only [tree_ids_list, List.mem_append]
      tauto

end


/-- C1 counterexample: in the graph where `root` depends on `alib` and
`zlib`, and `zlib` depends on `alib`, both dependencies are first covered
at depth 1, the descending sort breaks the tie by name, and `zlib` comes
out before the `alib` it needs. -/
theorem dependencies_counterexample :
    ("zlib", "alib") ∈ tree_edges cex_tree ∧
    (dependencies cex_tree).indexOf "zlib" < (dependencies cex_tree).indexOf "alib" := by
  constructor
  · decide
  · have h : dependencies cex_tree = ["zlib", "alib"] := by
      simp [dependencies, spec_traverse, cex_tree, traverse_post, traverse_post_list,
        List.mergeSort, List.merge, descending_le, pair_le, chars_lt, dedup_seen]
    rw [h]
    decide

/-- C1 (amended): on an acyclic, coherent dependency graph,
`dependencies(spec, 'all')` is the post-order depth-annotated traversal
sorted by depth descending (ties broken by descending spec order) and
de-duplicated keeping first occurrences; it lists each reachable dependency
exactly once with the root excluded, and the sorted list is ordered by
non-increasing first-visit depth, so a dependency appears before everything
whose first-visit depth is strictly smaller — but not necessarily before a
dependent of equal depth. -/
theorem dependencies_spec (t : DepTree) (hok : self_ok t = true)
    (hco : coherent_b t = true) :
    (dependencies t = (List.mergeSort (spec_traverse t) descending_le).map Prod.snd) ∧
    (dependencies t).Nodup ∧
    (∀ z, z ∈ dependencies t ↔ (z ∈ tree_ids t ∧ z ≠ root_name t)) ∧
    List.Pairwise (fun a b : Nat × String => b.1 ≤ a.1)
      (List.mergeSort (spec_traverse t) descending_le) ∧
    (∀ (i j : Nat) (hi : i < (List.mergeSort (spec_traverse t) descending_le).length)
        (hj : j < (List.mergeSort (spec_traverse t) descending_le).length),
      ((List.mergeSort (spec_traverse t) descending_le)[i]).1
          < ((List.mergeSort (spec_traverse t) descending_le)[j]).1 → j < i) := by
  obtain ⟨x, deps⟩ := t
  have hvis : (traverse_post [] 0 (DepTree.node x deps)).1
      = (traverse_post_list [x] 1 deps).1 ++ [(0, x)] := by
    simp [traverse_post]
  have hst : spec_traverse (DepTree.node x deps) = (traverse_post_list [x] 1 deps).1 := by
    unfold spec_traverse
    rw [hvis, List.dropLast_concat]
  have hxids : ¬ x ∈ tree_ids_list deps :=
    self_ok_root (DepTree.node x deps) x deps hok (mem_subtrees_self _)
  obtain ⟨hnd, hmem, -, -⟩ := trav_inv_list (DepTree.node x deps) hok hco deps [x] [x] 1
    (fun c hc => mem_subtrees_of_child x deps c hc)
    (fun y ds _ hy hyg => False.elim (hyg hy))
    (fun y hy => by
      rcases List.mem_cons.mp hy with h | h
      · exact h ▸ hxids
      · cases h)
  have hperm := List.mergeSort_perm (spec_traverse (DepTree.node x deps)) descending_le
  have hpermsnd := hperm.map Prod.snd
  have hndL : ((List.mergeSort (spec_traverse (DepTree.node x deps)) descending_le).map
      Prod.snd).Nodup := by
    rw [hpermsnd.nodup_iff, hst]
    exact hnd
  have hdep : dependencies (DepTree.node x deps)
      = (List.mergeSort (spec_traverse (DepTree.node x deps)) descending_le).map Prod.snd := by
    unfold dependencies
    exact dedup_seen_eq_map _ [] (by simp) hndL
  have hpw : List.Pairwise (fun a b : Nat × String => b.1 ≤ a.1)
      (List.mergeSort (spec_traverse (DepTree.node x deps)) descending_le) := by
    refine List.Pairwise.imp (fun h => descending_le_depth _ _ h) ?_
    exact List.sorted_mergeSort descending_le_trans descending_le_total
      (spec_traverse (DepTree.node x deps))
  refine ⟨hdep, by rw [hdep]; exact hndL, ?_, hpw, ?_⟩
  · intro z
    rw [hdep, hpermsnd.mem_iff, hst]
    rw [hmem z]
    simp only [tree_ids, List.mem_cons, root_name]
    constructor
    · rintro ⟨h1, h2⟩
      have hzx : z ≠ x := fun he => h2 (by simp [he])
      exact ⟨Or.inr h1, hzx⟩
    · rintro ⟨h1, h2⟩
      rcases h1 with h1 | h1
      · exact absurd h1 h2
      · refine ⟨h1, ?_⟩
        intro hz
        rcases hz with h3 | h3
        · exact h2 h3
        · cases h3
  · intro i j hi hj hlt
    rw [List.pairwise_iff_getElem] at hpw
    by_contra hji
    have hij : i ≤ j := by omega
    rcases Nat.lt_or_ge i j with h | h
    · have := hpw i j hi hj h
      omega
    · have hieq : i = j := by omega
      subst hieq
      omega


/-- Witness for `dependencies_spec` on a concrete chain graph whose two
dependencies sit at depths 2 and 1. -/
theorem dependencies_spec_witness :
    (dependencies wit_tree
      = (List.mergeSort (spec_traverse wit_tree) descending_le).map Prod.snd) ∧
    (dependencies wit_tree).Nodup ∧
    ("leaf" ∈ dependencies wit_tree ↔
      ("leaf" ∈ tree_ids wit_tree ∧ "leaf" ≠ root_name wit_tree)) ∧
    List.Pairwise (fun a b : Nat × String => b.1 ≤ a.1)
      (List.mergeSort (spec_traverse wit_tree) descending_le) ∧
    0 < 1 :=
  ⟨(dependencies_spec wit_tree (by decide) (by decide)).1,
   (dependencies_spec wit_tree (by decide) (by decide)).2.1,
   (dependencies_spec wit_tree (by decide) (by decide)).2.2.1 "leaf",
   (dependencies_spec wit_tree (by decide) (by decide)).2.2.2.1,
   (dependencies_spec wit_tree (by decide) (by decide)).2.2.2.2 1 0
     (by simp [wit_tree, spec_traverse, traverse_post, traverse_post_list,
       List.mergeSort, List.merge, descending_le, pair_le, chars_lt])
     (by simp [wit_tree, spec_traverse, traverse_post, traverse_post_list,
       List.mergeSort, List.merge, descending_le, pair_le, chars_lt])
     (by simp [wit_tree, spec_traverse, traverse_post, traverse_post_list,
       List.mergeSort, List.merge, descending_le, pair_le, chars_lt])⟩

end Spack
